import Mathlib

/-!
# BigInt.cpp: decimal big integers, schoolbook and Karatsuba multiplication

Shallow embedding of `src/BigInt.cpp`.

* A `BigInt` is its `vector<int> digits`, least significant digit first, modelled as a
  `List Int`.
* The function objects (`Add`, `Mul`, `Carry`, `SubWithBorrow`, `Borrow`, `Ascii2Int`; in
  namespace `Op`, the first two being names of Lean classes) carry their `int &` state
  explicitly: a stateful call takes the state and returns the emitted element together with
  the new state.
* `std::transform`, `std::copy`, `std::fill` and `vector::resize` are modelled by what they
  do element by element, in the order in which they do it.
* `int` arithmetic. C++ `/` and `%` truncate towards zero (`Int.tdiv`, `Int.tmod`). The
  product `a * k` of `Mul` is reduced to the 32-bit two's-complement range (`wrap32`):
  `operator*=(int)` hands it a multiplier chosen freely by the caller, and `9 * n` leaves the
  range of `int` from `n = 238609295` on. Sums and differences are kept exact. On digits in
  `0..9` they stay within `-10..19` in `operator+=` and `operator-=`; within
  `90 * min(len)` in `operator*=(const BigInt &)`, whose array of rows holds
  `min(len) * max(len)` elements, so that operands long enough to reach `2^31` cannot be
  stored; and within `10 * n` in `operator*=(int)`, where the statements below take
  `n ≤ 214748364`.
* Undefined behaviour that does not depend on the size of `int` (writing past the end of
  the minuend in `operator-=`, reading `array[0]` of an empty array in `operator*=`) is
  the result `none`.
* The shift count of `operator<<=` is a `Nat`: the callers pass `i`, `m` and `2 * m`.
* Values that the operators hold only in between (the carry of `operator+=` before
  `if (carry)`, the rows and the successive contents of `digits` in
  `operator*=(const BigInt &)`, what the carry pass sees) are given by `addCarry`,
  `mulArray`, `mulStates`, `mulColumns` and `carryTrace`, which follow the code of the
  operator up to the point observed.
-/

/-- Reduction of an exact integer to the range of a 32-bit two's-complement `int`. -/
def wrap32 (x : Int) : Int := (x + 2147483648) % 4294967296 - 2147483648

/-- The record `struct BigInt { vector<int> digits; ... }`. -/
structure BigInt where
  digits : List Int
deriving DecidableEq, Repr

namespace Op

/-- The functor `struct Ascii2Int`: `c - '0'`. -/
def Ascii2Int (c : Char) : Int := (c.toNat : Int) - 48

/-- The functor `struct Add`: `a + b`. -/
def Add (a b : Int) : Int := a + b

/-- The functor `struct Mul` with field `k`: `a * k` in `int`. -/
def Mul (k : Int) (a : Int) : Int := wrap32 (a * k)

/-- The functor `Carry::operator()`: `n += carry; carry = n / 10; n %= 10; return n`.
The result is the returned element and the new value of `carry`. -/
def Carry (carry : Int) (n : Int) : Int × Int :=
  let n1 := n + carry
  (n1.tmod 10, n1.tdiv 10)

/-- The unary `OpWithCarry<BaseOp>::operator()(a)`. -/
def OpWithCarry1 (baseOp : Int → Int) (carry : Int) (a : Int) : Int × Int :=
  Carry carry (baseOp a)

/-- The binary `OpWithCarry<BaseOp>::operator()(a, b)`. -/
def OpWithCarry2 (baseOp : Int → Int → Int) (carry : Int) (a b : Int) : Int × Int :=
  Carry carry (baseOp a b)

/-- The loop `while (n < 0) { n += 10; borrow++; }`, run for at most `fuel` rounds. -/
def borrowLoopAux : Nat → Int → Int → Int × Int
  | 0, n, borrow => (n, borrow)
  | fuel + 1, n, borrow =>
    if n < 0 then borrowLoopAux fuel (n + 10) (borrow + 1) else (n, borrow)

/-- The loop `while (n < 0) { n += 10; borrow++; }`; it runs fewer than `-n` + 1 rounds. -/
def borrowLoop (n borrow : Int) : Int × Int := borrowLoopAux (-n).toNat n borrow

/-- The functor `SubWithBorrow::operator()(a, b)`: `n = b - a - borrow; borrow = 0;` then
the borrow loop. The result is the returned element and the new value of `borrow`. -/
def SubWithBorrow (borrow : Int) (a b : Int) : Int × Int :=
  borrowLoop (b - a - borrow) 0

/-- The functor `Borrow::operator()(n)`: `n -= borrow; borrow = 0;` then the borrow loop. -/
def Borrow (borrow : Int) (n : Int) : Int × Int :=
  borrowLoop (n - borrow) 0

end Op

/-- In-place `std::transform(first, last, first, op)` with a stateful unary functor:
the new elements and the final state. -/
def transform1 (op : Int → Int → Int × Int) : Int → List Int → List Int × Int
  | st, [] => ([], st)
  | st, x :: xs =>
    let r := op st x
    let rs := transform1 op r.2 xs
    (r.1 :: rs.1, rs.2)

/-- The call `std::transform(src.begin(), src.end(), dst.begin(), dst.begin(), op)` with a
stateful binary functor, called as `op(src[i], dst[i])`: the elements written to the front of
`dst` and the final state. -/
def transform2 (op : Int → Int → Int → Int × Int) : Int → List Int → List Int → List Int × Int
  | st, a :: as, b :: bs =>
    let r := op st a b
    let rs := transform2 op r.2 as bs
    (r.1 :: rs.1, rs.2)
  | st, _, _ => ([], st)

/-- The call `std::transform(src.begin(), src.end(), dst.begin(), dst.begin(), op)` with a
stateless binary functor: the whole of `dst` afterwards. -/
def transformZip (op : Int → Int → Int) : List Int → List Int → List Int
  | a :: as, b :: bs => op a b :: transformZip op as bs
  | [], bs => bs
  | _ :: _, [] => []

/-- The call `std::transform(src.begin(), src.end(), dst.begin(), op)` with a stateless unary
functor and a destination at least as long as the source: the whole of `dst` afterwards. -/
def transformInto (op : Int → Int) (src dst : List Int) : List Int :=
  src.map op ++ dst.drop src.length

/-- The call `std::copy(src.begin(), src.end(), dst.begin())` between two vectors:
the whole of `dst` afterwards. -/
def copyInto (src dst : List Int) : List Int :=
  src ++ dst.drop src.length

/-- The method `vector<int>::resize(n)`: cut to `n` elements or pad with zeros. -/
def resize (v : List Int) (n : Nat) : List Int :=
  v.take n ++ List.replicate (n - v.length) 0

/-- The call `std::copy(v.rbegin() + n, v.rend(), v.rbegin())` on a vector of `size + n`
elements: step `j` assigns element `size + n - 1 - j` from element `size - 1 - j`,
for `j = 0, ..., size - 1`. -/
def copyReverse (v : List Int) (size n : Nat) : List Int :=
  (List.range size).foldl
    (fun w j => w.set (size + n - 1 - j) (w.getD (size - 1 - j) 0)) v

/-- The call `std::fill(v.begin(), v.begin() + n, x)`. -/
def fill (v : List Int) (n : Nat) (x : Int) : List Int :=
  (List.range n).foldl (fun w i => w.set i x) v

/-- The loop `while (carry) { digits.push_back(carry % 10); carry /= 10; }`, run for at
most `fuel` rounds: the elements pushed. -/
def drainAux : Nat → Int → List Int
  | 0, _ => []
  | fuel + 1, carry =>
    if carry = 0 then [] else carry.tmod 10 :: drainAux fuel (carry.tdiv 10)

/-- The loop `while (carry) { digits.push_back(carry % 10); carry /= 10; }`: the elements
pushed. The absolute value of `carry` shrinks in every round, so it bounds their number. -/
def drain (carry : Int) : List Int := drainAux carry.natAbs carry

/-- The number denoted by a little-endian digit sequence: `d₀ + 10 * (d₁ + 10 * (...))`,
which is the sum of `dᵢ * 10^i`. -/
def digitsValue : List Int → Int
  | [] => 0
  | d :: ds => d + 10 * digitsValue ds

/-- Every element of the list lies in `0..9`. -/
def digitsOk (l : List Int) : Prop := ∀ d ∈ l, 0 ≤ d ∧ d ≤ 9

instance (l : List Int) : Decidable (digitsOk l) :=
  inferInstanceAs (Decidable (∀ d ∈ l, 0 ≤ d ∧ d ≤ 9))

namespace BigInt

/-- The constructor `BigInt::BigInt(string str)`: the characters from last to first, each
through `Ascii2Int`. -/
def ofString (str : String) : BigInt := ⟨str.data.reverse.map Op.Ascii2Int⟩

/-- The default argument of the constructor: `BigInt()` is `BigInt("0")`. -/
instance : Inhabited BigInt := ⟨ofString "0"⟩

/-- The stream output `operator<<(ostream &, BICR)`: every element from last to first,
printed as an `int`, with nothing in between. -/
def print (bi : BigInt) : String := String.join (bi.digits.reverse.map Int.repr)

/-- The numeric value denoted by a digit vector: the sum of `digits[i] * 10^i`. -/
def value (bi : BigInt) : Int := digitsValue bi.digits

/-- Every digit lies in `0..9`. -/
def DigitsOk (bi : BigInt) : Prop := digitsOk bi.digits

/-- A well-formed operand: at least one digit, every digit in `0..9`. -/
def WellFormed (bi : BigInt) : Prop := bi.digits ≠ [] ∧ bi.DigitsOk

instance (bi : BigInt) : Decidable bi.DigitsOk :=
  inferInstanceAs (Decidable (digitsOk bi.digits))

instance (bi : BigInt) : Decidable bi.WellFormed :=
  inferInstanceAs (Decidable (_ ∧ _))

/-- The operator `BigInt::operator+=` (and `operator+` on a copy). -/
def add (self bi : BigInt) : BigInt :=
  let digits :=
    if self.digits.length < bi.digits.length then resize self.digits bi.digits.length
    else self.digits
  let r1 := transform2 (Op.OpWithCarry2 Op.Add) 0 bi.digits digits
  let r2 := transform1 Op.Carry r1.2 (digits.drop bi.digits.length)
  let digits := r1.1 ++ r2.1
  ⟨if r2.2 ≠ 0 then digits ++ [r2.2] else digits⟩

/-- The operator `BigInt::operator-=` (and `operator-` on a copy). With fewer digits in the
minuend than in the subtrahend the first `transform` writes past the end of `digits`. -/
def sub (self bi : BigInt) : Option BigInt :=
  if self.digits.length < bi.digits.length then none
  else
    let r1 := transform2 Op.SubWithBorrow 0 bi.digits self.digits
    let r2 := transform1 Op.Borrow r1.2 (self.digits.drop bi.digits.length)
    some ⟨r1.1 ++ r2.1⟩

/-- The operator `BigInt::operator*=(int n)` (and `operator*(int)` on a copy). -/
def mulInt (self : BigInt) (n : Int) : BigInt :=
  let r := transform1 (Op.OpWithCarry1 (Op.Mul n)) 0 self.digits
  ⟨r.1 ++ drain r.2⟩

/-- The operator `BigInt::operator<<=(int n)` for `n ≥ 0` (and `operator<<` on a copy). -/
def shl (self : BigInt) (n : Nat) : BigInt :=
  let size := self.digits.length
  let v := resize self.digits (size + n)
  let v := copyReverse v size n
  ⟨fill v n 0⟩

/-- The second loop of `operator*=(const BigInt &)`: for `i` from the given index on,
`array[i] <<= i` and then `digits[j] += array[i].digits[j]` without carrying. -/
def accumulate : List BigInt → Nat → List Int → List Int
  | [], _, digits => digits
  | row :: rows, i, digits =>
    accumulate rows (i + 1) (transformZip Op.Add (row.shl i).digits digits)

/-- The operator `BigInt::operator*=(const BigInt &)` (and `operator*` on a copy).
With an empty shorter operand `array[0]` does not exist. -/
def mul (self bi : BigInt) : Option BigInt :=
  let ops := if self.digits.length < bi.digits.length then (bi, self) else (self, bi)
  let max_op := ops.1
  let min_op := ops.2
  let max_size := max_op.digits.length
  let min_size := min_op.digits.length
  let array : List BigInt := min_op.digits.map fun d =>
    ⟨transformInto (Op.Mul d) max_op.digits (resize (default : BigInt).digits max_size)⟩
  match array with
  | [] => none
  | row0 :: rows =>
    let digits := resize row0.digits (max_size + min_size)
    let digits := accumulate rows 1 digits
    let r := transform1 Op.Carry 0 digits
    some ⟨r.1 ++ drain r.2⟩

end BigInt

/-- The procedure `split`: the four halves and the boundary `m`, from the operands and the
previous contents of the four output objects. -/
def split (op1 op2 x0 x1 y0 y1 : BigInt) : BigInt × BigInt × BigInt × BigInt × Nat :=
  let size1 := op1.digits.length
  let size2 := op2.digits.length
  let min_size := if size1 > size2 then size2 else size1
  let m := min_size / 2
  let x0d := resize x0.digits m
  let x1d := resize x1.digits (size1 - m)
  let y0d := resize y0.digits m
  let y1d := resize y1.digits (size2 - m)
  (⟨copyInto (op1.digits.take m) x0d⟩, ⟨copyInto (op1.digits.drop m) x1d⟩,
   ⟨copyInto (op2.digits.take m) y0d⟩, ⟨copyInto (op2.digits.drop m) y1d⟩, m)

/-- The function `karatsuba`. Each recursive call receives a first operand with fewer digits
than `op1`: the halves have `m` and `size1 - m` digits and the sum of the halves at most
`size1 - m + 1`, where `m ≥ 15`. -/
def karatsuba (op1 op2 : BigInt) : Option BigInt :=
  if op1.digits.length < 30 ∨ op2.digits.length < 30 then op1.mul op2
  else
    let s := split op1 op2 default default default default
    let x0 := s.1
    let x1 := s.2.1
    let y0 := s.2.2.1
    let y1 := s.2.2.2.1
    let m := s.2.2.2.2
    match karatsuba x0 y0 with
    | none => none
    | some z0 =>
      match karatsuba x1 y1 with
      | none => none
      | some z2 =>
        match karatsuba (x0.add x1) (y0.add y1) with
        | none => none
        | some p =>
          match p.sub z2 with
          | none => none
          | some d =>
            match d.sub z0 with
            | none => none
            | some z1 =>
              let z1 := z1.shl m
              let z2 := z2.shl (2 * m)
              some ((z0.add z1).add z2)
termination_by op1.digits.length
decreasing_by
  all_goals simp_wf
  all_goals rename_i h
  all_goals
    have h1 : ∀ (op : Int → Int → Int × Int) (l : List Int) (st : Int),
        (transform1 op st l).1.length = l.length := by
      intro op l
      induction l with
      | nil => intro _; rfl
      | cons x xs ih => intro st; simp [transform1, ih]
  all_goals
    have h2 : ∀ (op : Int → Int → Int → Int × Int) (l1 l2 : List Int) (st : Int),
        (transform2 op st l1 l2).1.length = min l1.length l2.length := by
      intro op l1
      induction l1 with
      | nil => intro l2 _; simp [transform2]
      | cons x xs ih =>
        intro l2 st
        cases l2 with
        | nil => simp [transform2]
        | cons y ys => simp [transform2, ih]; omega
  all_goals
    have hadd : ∀ a b : BigInt,
        (a.add b).digits.length ≤ max a.digits.length b.digits.length + 1 := by
      intro a b
      simp only [BigInt.add, resize]
      split_ifs <;>
        simp only [List.length_append, List.length_take, List.length_drop,
          List.length_replicate, List.length_singleton, h1, h2] <;> omega
  all_goals
    have hx0 : (split op1 op2 default default default default).1.digits.length
        = min op1.digits.length op2.digits.length / 2 := by
      simp only [split, copyInto, resize]
      split_ifs <;>
        simp only [List.length_append, List.length_take, List.length_drop,
          List.length_replicate] <;> omega
  all_goals
    have hx1 : (split op1 op2 default default default default).2.1.digits.length
        = op1.digits.length - min op1.digits.length op2.digits.length / 2 := by
      simp only [split, copyInto, resize]
      split_ifs <;>
        simp only [List.length_append, List.length_take, List.length_drop,
          List.length_replicate] <;> omega
  · omega
  · omega
  · have := hadd (split op1 op2 default default default default).1
      (split op1 op2 default default default default).2.1
    omega

/-! ## Intermediate values of `operator+=` and `operator*=` -/

/-- The value of `carry` in `operator+=` after both transforms, where `if (carry)` tests
it. -/
def BigInt.addCarry (self bi : BigInt) : Int :=
  let digits :=
    if self.digits.length < bi.digits.length then resize self.digits bi.digits.length
    else self.digits
  let r1 := transform2 (Op.OpWithCarry2 Op.Add) 0 bi.digits digits
  let r2 := transform1 Op.Carry r1.2 (digits.drop bi.digits.length)
  r2.2

/-- The array of rows of `operator*=(const BigInt &)` after its first loop: `array[i]` holds
the products of the digits of the longer operand by digit `i` of the shorter one. -/
def BigInt.mulArray (self bi : BigInt) : List BigInt :=
  let ops := if self.digits.length < bi.digits.length then (bi, self) else (self, bi)
  ops.2.digits.map fun d =>
    ⟨transformInto (Op.Mul d) ops.1.digits
      (resize (default : BigInt).digits ops.1.digits.length)⟩

/-- The contents of `digits` after each round of the second loop of
`operator*=(const BigInt &)`, from the given index on. -/
def BigInt.accumulateStates : List BigInt → Nat → List Int → List (List Int)
  | [], _, _ => []
  | row :: rows, i, digits =>
    (transformZip Op.Add (row.shl i).digits digits)
      :: accumulateStates rows (i + 1) (transformZip Op.Add (row.shl i).digits digits)

/-- Every content of `digits` in `operator*=(const BigInt &)` between `*this = array[0]` and
the carry pass: after the `resize`, then after each round of the second loop. -/
def BigInt.mulStates (self bi : BigInt) : List (List Int) :=
  let ops := if self.digits.length < bi.digits.length then (bi, self) else (self, bi)
  match self.mulArray bi with
  | [] => []
  | row0 :: rows =>
    (resize row0.digits (ops.1.digits.length + ops.2.digits.length))
      :: BigInt.accumulateStates rows 1
          (resize row0.digits (ops.1.digits.length + ops.2.digits.length))

/-- The content of `digits` in `operator*=(const BigInt &)` on which the carry pass runs:
the un-normalised column sums. -/
def BigInt.mulColumns (self bi : BigInt) : List Int :=
  let ops := if self.digits.length < bi.digits.length then (bi, self) else (self, bi)
  match self.mulArray bi with
  | [] => []
  | row0 :: rows =>
    BigInt.accumulate rows 1 (resize row0.digits (ops.1.digits.length + ops.2.digits.length))

/-- What the carry pass `transform(first, last, first, Carry(carry))` sees at each element:
the value of `n` after `n += carry` and the value of `carry` after `carry = n / 10`. -/
def carryTrace : Int → List Int → List (Int × Int)
  | _, [] => []
  | carry, n :: ns =>
    (n + carry, (Op.Carry carry n).2) :: carryTrace (Op.Carry carry n).2 ns

/-! ## Auxiliary notions for the proofs -/

/-- The combination `dst[i] = f(src[i], dst[i])` over the front of `dst`, the rest of `dst`
kept: what a binary in-place transform computes before any carry or borrow. -/
def pointwise (f : Int → Int → Int) (src dst : List Int) : List Int :=
  List.zipWith f src dst ++ dst.drop src.length

/-- The left operand of `operator+=` after its conditional `resize`. -/
def padded (a b : BigInt) : List Int :=
  if a.digits.length < b.digits.length then resize a.digits b.digits.length else a.digits

/-- The body of `operator*=(const BigInt &)` once the longer and the shorter operand have
been told apart. -/
def mulBody (max_op min_op : BigInt) : Option BigInt :=
  match min_op.digits.map fun d =>
    (⟨transformInto (Op.Mul d) max_op.digits
      (resize (default : BigInt).digits max_op.digits.length)⟩ : BigInt) with
  | [] => none
  | row0 :: rows =>
    some ⟨(transform1 Op.Carry 0 (BigInt.accumulate rows 1
        (resize row0.digits (max_op.digits.length + min_op.digits.length)))).1
      ++ drain (transform1 Op.Carry 0 (BigInt.accumulate rows 1
        (resize row0.digits (max_op.digits.length + min_op.digits.length)))).2⟩

/-! ## Values and digit ranges of digit sequences -/

theorem digitsOk_nil : digitsOk [] := by
  intro d hd
  cases hd

theorem digitsOk_cons {d : Int} {ds : List Int} :
    digitsOk (d :: ds) ↔ (0 ≤ d ∧ d ≤ 9) ∧ digitsOk ds := by
  simp [digitsOk]

theorem digitsOk_append {l1 l2 : List Int} :
    digitsOk (l1 ++ l2) ↔ digitsOk l1 ∧ digitsOk l2 := by
  simp only [digitsOk, List.mem_append]
  constructor
  · intro h
    exact ⟨fun d hd => h d (Or.inl hd), fun d hd => h d (Or.inr hd)⟩
  · rintro ⟨h1, h2⟩ d (hd | hd)
    · exact h1 d hd
    · exact h2 d hd

theorem digitsOk_replicate_zero (n : Nat) : digitsOk (List.replicate n 0) := by
  intro d hd
  rw [List.mem_replicate] at hd
  omega

theorem digitsOk_take {l : List Int} (h : digitsOk l) (n : Nat) : digitsOk (l.take n) :=
  fun d hd => h d (List.mem_of_mem_take hd)

theorem digitsOk_drop {l : List Int} (h : digitsOk l) (n : Nat) : digitsOk (l.drop n) :=
  fun d hd => h d (List.mem_of_mem_drop hd)

theorem digitsValue_append (l1 l2 : List Int) :
    digitsValue (l1 ++ l2) = digitsValue l1 + 10 ^ l1.length * digitsValue l2 := by
  induction l1 with
  | nil => simp [digitsValue]
  | cons d ds ih =>
    rw [List.cons_append]
    simp only [digitsValue, List.length_cons, pow_succ]
    rw [ih]
    ring

theorem digitsValue_replicate_zero (n : Nat) : digitsValue (List.replicate n 0) = 0 := by
  induction n with
  | zero => rfl
  | succ k ih => simp [List.replicate_succ, digitsValue, ih]

theorem digitsValue_singleton (d : Int) : digitsValue [d] = d := by
  simp [digitsValue]

theorem digitsValue_take_add_drop (l : List Int) (n : Nat) :
    digitsValue (l.take n) + 10 ^ (l.take n).length * digitsValue (l.drop n)
      = digitsValue l := by
  rw [← digitsValue_append, List.take_append_drop]

/-- The value of a sequence of digits in `0..9` is non-negative and below `10^length`. -/
theorem digitsValue_bounds {l : List Int} (h : digitsOk l) :
    0 ≤ digitsValue l ∧ digitsValue l < 10 ^ l.length := by
  induction l with
  | nil => simp [digitsValue]
  | cons d ds ih =>
    rw [digitsOk_cons] at h
    obtain ⟨hd, hds⟩ := h
    obtain ⟨h0, h1⟩ := ih hds
    simp only [digitsValue, List.length_cons, pow_succ]
    constructor
    · omega
    · omega

theorem digitsValue_nonneg_of_nonneg {l : List Int} (h : ∀ d ∈ l, 0 ≤ d) :
    0 ≤ digitsValue l := by
  induction l with
  | nil => simp [digitsValue]
  | cons d ds ih =>
    have h1 := h d (List.mem_cons_self d ds)
    have h2 := ih (fun x hx => h x (List.mem_cons_of_mem d hx))
    simp only [digitsValue]
    omega

/-- Two sequences of digits in `0..9` of the same length and the same value are equal. -/
theorem digits_eq_of_value_eq : ∀ (l1 l2 : List Int), digitsOk l1 → digitsOk l2 →
    l1.length = l2.length → digitsValue l1 = digitsValue l2 → l1 = l2
  | [], [], _, _, _, _ => rfl
  | [], _ :: _, _, _, hl, _ => by simp at hl
  | _ :: _, [], _, _, hl, _ => by simp at hl
  | d :: ds, e :: es, h1, h2, hl, hv => by
    rw [digitsOk_cons] at h1 h2
    simp only [digitsValue] at hv
    have hde : d = e := by omega
    have hrest : digitsValue ds = digitsValue es := by omega
    have := digits_eq_of_value_eq ds es h1.2 h2.2 (by simpa using hl) hrest
    rw [hde, this]

/-- The value as the sum of `digits[i] * 10^i`. -/
theorem digitsValue_eq_sum (l : List Int) :
    digitsValue l = ∑ i : Fin l.length, l.get i * 10 ^ (i : Nat) := by
  induction l with
  | nil => simp [digitsValue]
  | cons d ds ih =>
    show digitsValue (d :: ds) = ∑ i : Fin (ds.length + 1), (d :: ds).get i * 10 ^ (i : Nat)
    rw [Fin.sum_univ_succ]
    simp only [digitsValue, ih, Finset.mul_sum, List.get_eq_getElem,
      Fin.val_zero, List.getElem_cons_zero, pow_zero, mul_one, Fin.val_succ,
      List.getElem_cons_succ, pow_succ]
    congr 1
    apply Finset.sum_congr rfl
    intro i _
    ring

/-! ## The transforms as carry and borrow chains -/

theorem transform1_length (op : Int → Int → Int × Int) (l : List Int) (st : Int) :
    (transform1 op st l).1.length = l.length := by
  induction l generalizing st with
  | nil => rfl
  | cons x xs ih => simp [transform1, ih]

theorem transform1_append (op : Int → Int → Int × Int) (l1 l2 : List Int) (st : Int) :
    transform1 op st (l1 ++ l2)
      = ((transform1 op st l1).1 ++ (transform1 op (transform1 op st l1).2 l2).1,
         (transform1 op (transform1 op st l1).2 l2).2) := by
  induction l1 generalizing st with
  | nil => simp [transform1]
  | cons x xs ih => simp [transform1, ih]

theorem pointwise_length (f : Int → Int → Int) (src dst : List Int)
    (h : src.length ≤ dst.length) : (pointwise f src dst).length = dst.length := by
  simp only [pointwise, List.length_append, List.length_zipWith, List.length_drop]
  omega

theorem pointwise_nil (f : Int → Int → Int) (dst : List Int) : pointwise f [] dst = dst := by
  simp [pointwise]

theorem pointwise_cons (f : Int → Int → Int) (a b : Int) (src dst : List Int) :
    pointwise f (a :: src) (b :: dst) = f a b :: pointwise f src dst := by
  simp [pointwise]

/-- The binary transform with carry is the carry chain over the element-wise combination. -/
theorem transform2_opWithCarry (baseOp : Int → Int → Int) (src dst : List Int) (st : Int) :
    transform2 (Op.OpWithCarry2 baseOp) st src dst
      = transform1 Op.Carry st (List.zipWith baseOp src dst) := by
  induction src generalizing dst st with
  | nil => simp [transform2, transform1]
  | cons a as ih =>
    cases dst with
    | nil => simp [transform2, transform1]
    | cons b bs => simp [transform2, transform1, ih, Op.OpWithCarry2]

/-- The unary transform with carry is the carry chain over the mapped elements. -/
theorem transform1_opWithCarry (baseOp : Int → Int) (l : List Int) (st : Int) :
    transform1 (Op.OpWithCarry1 baseOp) st l = transform1 Op.Carry st (l.map baseOp) := by
  induction l generalizing st with
  | nil => simp [transform1]
  | cons a as ih => simp [transform1, ih, Op.OpWithCarry1]

/-- The binary transform with borrow is the borrow chain over the element-wise differences. -/
theorem transform2_subWithBorrow (src dst : List Int) (st : Int) :
    transform2 Op.SubWithBorrow st src dst
      = transform1 Op.Borrow st (List.zipWith (fun a b => b - a) src dst) := by
  induction src generalizing dst st with
  | nil => simp [transform2, transform1]
  | cons a as ih =>
    cases dst with
    | nil => simp [transform2, transform1]
    | cons b bs =>
      simp only [transform2, transform1, ih, List.zipWith_cons_cons, Op.SubWithBorrow,
        Op.Borrow]

theorem transformZip_eq_pointwise (op : Int → Int → Int) (src dst : List Int)
    (h : src.length ≤ dst.length) : transformZip op src dst = pointwise op src dst := by
  induction src generalizing dst with
  | nil => simp [transformZip, pointwise]
  | cons a as ih =>
    cases dst with
    | nil => simp at h
    | cons b bs =>
      simp only [List.length_cons, Nat.add_le_add_iff_right] at h
      simp [transformZip, pointwise_cons, ih bs h]

theorem digitsValue_pointwise_add (src dst : List Int) (h : src.length ≤ dst.length) :
    digitsValue (pointwise Op.Add src dst) = digitsValue src + digitsValue dst := by
  induction src generalizing dst with
  | nil => simp [pointwise, digitsValue]
  | cons a as ih =>
    cases dst with
    | nil => simp at h
    | cons b bs =>
      simp only [List.length_cons, Nat.add_le_add_iff_right] at h
      rw [pointwise_cons]
      simp only [digitsValue, ih bs h, Op.Add]
      ring

theorem digitsValue_pointwise_sub (src dst : List Int) (h : src.length ≤ dst.length) :
    digitsValue (pointwise (fun a b => b - a) src dst) = digitsValue dst - digitsValue src := by
  induction src generalizing dst with
  | nil => simp [pointwise, digitsValue]
  | cons a as ih =>
    cases dst with
    | nil => simp at h
    | cons b bs =>
      simp only [List.length_cons, Nat.add_le_add_iff_right] at h
      rw [pointwise_cons]
      simp only [digitsValue, ih bs h]
      ring

/-- Bounds on the elements of an element-wise combination, from bounds on the operands. -/
theorem pointwise_bounds (f : Int → Int → Int) (P Q R : Int → Prop)
    (hf : ∀ a b, P a → Q b → R (f a b)) (hQR : ∀ b, Q b → R b) (src dst : List Int)
    (hs : ∀ d ∈ src, P d) (hd : ∀ d ∈ dst, Q d) :
    ∀ d ∈ pointwise f src dst, R d := by
  induction src generalizing dst with
  | nil =>
    rw [pointwise_nil]
    exact fun d h => hQR d (hd d h)
  | cons a as ih =>
    cases dst with
    | nil =>
      intro d h
      simp [pointwise] at h
    | cons b bs =>
      rw [pointwise_cons]
      intro d h
      rcases List.mem_cons.1 h with h | h
      · rw [h]
        exact hf a b (hs a (List.mem_cons_self a as)) (hd b (List.mem_cons_self b bs))
      · exact ih bs (fun x hx => hs x (List.mem_cons_of_mem a hx))
          (fun x hx => hd x (List.mem_cons_of_mem b hx)) d h

/-! ### The carry chain -/

theorem carry_eq (c n : Int) (h : 0 ≤ n + c) : Op.Carry c n = ((n + c) % 10, (n + c) / 10) := by
  simp only [Op.Carry]
  rw [Int.tmod_eq_emod h (by norm_num), Int.tdiv_eq_ediv h (by norm_num)]

/-- The carry chain keeps the value: the emitted digits plus the final carry at the top. -/
theorem transform1_carry_value (l : List Int) (c : Int) :
    digitsValue (transform1 Op.Carry c l).1 + 10 ^ l.length * (transform1 Op.Carry c l).2
      = digitsValue l + c := by
  induction l generalizing c with
  | nil => simp [transform1, digitsValue]
  | cons x xs ih =>
    simp only [transform1, digitsValue, List.length_cons, pow_succ]
    have h1 := ih (Op.Carry c x).2
    have h2 : (Op.Carry c x).1 + 10 * (Op.Carry c x).2 = x + c := by
      simp only [Op.Carry]
      exact Int.tmod_add_tdiv (x + c) 10
    linear_combination 10 * h1 + h2

/-- On elements in `0..M` and a carry in `0..C`, where `M + C ≤ 10 * C + 9`, the carry chain
emits digits in `0..9` and its carry stays in `0..C`. -/
theorem transform1_carry_bounds (M C : Int) (hMC : M + C ≤ 10 * C + 9) (l : List Int)
    (c : Int) (hl : ∀ d ∈ l, 0 ≤ d ∧ d ≤ M) (hc : 0 ≤ c ∧ c ≤ C) :
    digitsOk (transform1 Op.Carry c l).1 ∧ 0 ≤ (transform1 Op.Carry c l).2
      ∧ (transform1 Op.Carry c l).2 ≤ C := by
  induction l generalizing c with
  | nil => exact ⟨digitsOk_nil, hc.1, hc.2⟩
  | cons x xs ih =>
    have hx := hl x (List.mem_cons_self x xs)
    have hxs : ∀ d ∈ xs, 0 ≤ d ∧ d ≤ M := fun d hd => hl d (List.mem_cons_of_mem x hd)
    have hnn : 0 ≤ x + c := by omega
    simp only [transform1, carry_eq c x hnn]
    have hc2 : 0 ≤ (x + c) / 10 ∧ (x + c) / 10 ≤ C := by omega
    obtain ⟨h1, h2, h3⟩ := ih ((x + c) / 10) hxs hc2
    refine ⟨?_, h2, h3⟩
    rw [digitsOk_cons]
    exact ⟨by omega, h1⟩

/-- On non-negative elements and a non-negative carry, the carry chain emits digits in `0..9`
and leaves a non-negative carry. -/
theorem transform1_carry_nonneg (l : List Int) (c : Int) (hl : ∀ d ∈ l, 0 ≤ d) (hc : 0 ≤ c) :
    digitsOk (transform1 Op.Carry c l).1 ∧ 0 ≤ (transform1 Op.Carry c l).2 := by
  induction l generalizing c with
  | nil => exact ⟨digitsOk_nil, hc⟩
  | cons x xs ih =>
    have hx := hl x (List.mem_cons_self x xs)
    have hxs : ∀ d ∈ xs, 0 ≤ d := fun d hd => hl d (List.mem_cons_of_mem x hd)
    have hnn : 0 ≤ x + c := by omega
    simp only [transform1, carry_eq c x hnn]
    obtain ⟨h1, h2⟩ := ih ((x + c) / 10) hxs (by omega)
    refine ⟨?_, h2⟩
    rw [digitsOk_cons]
    exact ⟨by omega, h1⟩

/-! ### The borrow chain -/

theorem borrowLoopAux_nonneg (fuel : Nat) (n b : Int) (h : 0 ≤ n) :
    Op.borrowLoopAux fuel n b = (n, b) := by
  cases fuel with
  | zero => rfl
  | succ k =>
    have : ¬ n < 0 := by omega
    simp [Op.borrowLoopAux, this]

theorem borrowLoop_eq (n b : Int) (h : -10 ≤ n) :
    Op.borrowLoop n b = if n < 0 then (n + 10, b + 1) else (n, b) := by
  unfold Op.borrowLoop
  by_cases hn : n < 0
  · obtain ⟨k, hk⟩ : ∃ k, (-n).toNat = k + 1 := ⟨(-n).toNat - 1, by omega⟩
    rw [hk]
    simp only [Op.borrowLoopAux, hn, if_true]
    exact borrowLoopAux_nonneg k (n + 10) (b + 1) (by omega)
  · simp only [hn, if_false]
    exact borrowLoopAux_nonneg _ n b (by omega)

theorem borrow_eq (b n : Int) (h : -10 ≤ n - b) :
    Op.Borrow b n = if n - b < 0 then (n - b + 10, 1) else (n - b, 0) := by
  simp only [Op.Borrow, borrowLoop_eq (n - b) 0 h]
  simp

/-- On elements in `-9..9` and a borrow of 0 or 1, the borrow chain emits digits in `0..9`,
leaves a borrow of 0 or 1, and the emitted digits denote the value of the input minus the
incoming borrow, plus `10^length` when a borrow is left. -/
theorem transform1_borrow_spec (l : List Int) (b : Int) (hl : ∀ d ∈ l, -9 ≤ d ∧ d ≤ 9)
    (hb : b = 0 ∨ b = 1) :
    digitsOk (transform1 Op.Borrow b l).1
      ∧ ((transform1 Op.Borrow b l).2 = 0 ∨ (transform1 Op.Borrow b l).2 = 1)
      ∧ digitsValue (transform1 Op.Borrow b l).1
          = digitsValue l - b + 10 ^ l.length * (transform1 Op.Borrow b l).2 := by
  induction l generalizing b with
  | nil => simp [transform1, digitsValue, digitsOk_nil, hb]
  | cons x xs ih =>
    have hx := hl x (List.mem_cons_self x xs)
    have hxs : ∀ d ∈ xs, -9 ≤ d ∧ d ≤ 9 := fun d hd => hl d (List.mem_cons_of_mem x hd)
    have hge : -10 ≤ x - b := by omega
    simp only [transform1, borrow_eq b x hge, digitsValue, List.length_cons, pow_succ]
    by_cases hneg : x - b < 0
    · simp only [hneg, if_true]
      obtain ⟨h1, h2, h3⟩ := ih 1 hxs (Or.inr rfl)
      refine ⟨?_, h2, ?_⟩
      · rw [digitsOk_cons]
        exact ⟨by omega, h1⟩
      · rw [h3]
        ring
    · simp only [hneg, if_false]
      obtain ⟨h1, h2, h3⟩ := ih 0 hxs (Or.inl rfl)
      refine ⟨?_, h2, ?_⟩
      · rw [digitsOk_cons]
        exact ⟨by omega, h1⟩
      · rw [h3]
        ring

/-! ## Addition and subtraction -/

theorem resize_of_length_le (v : List Int) (n : Nat) (h : v.length ≤ n) :
    resize v n = v ++ List.replicate (n - v.length) 0 := by
  simp [resize, List.take_of_length_le h]

theorem resize_length (v : List Int) (n : Nat) : (resize v n).length = n := by
  simp only [resize, List.length_append, List.length_take, List.length_replicate]
  omega

theorem padded_length (a b : BigInt) :
    (padded a b).length = max a.digits.length b.digits.length := by
  unfold padded
  split_ifs with h
  · rw [resize_length]; omega
  · omega

theorem padded_value (a b : BigInt) : digitsValue (padded a b) = a.value := by
  unfold padded BigInt.value
  split_ifs with h
  · rw [resize_of_length_le _ _ (by omega), digitsValue_append, digitsValue_replicate_zero]
    ring
  · rfl

theorem padded_ok (a b : BigInt) (ha : a.DigitsOk) : digitsOk (padded a b) := by
  unfold padded
  split_ifs with h
  · rw [resize_of_length_le _ _ (by omega), digitsOk_append]
    exact ⟨ha, digitsOk_replicate_zero _⟩
  · exact ha

/-- The two transforms of `operator+=` are one carry chain over the element-wise sums. -/
theorem add_digits (a b : BigInt) :
    (a.add b).digits
      = (transform1 Op.Carry 0 (pointwise Op.Add b.digits (padded a b))).1
        ++ (if (transform1 Op.Carry 0 (pointwise Op.Add b.digits (padded a b))).2 ≠ 0
            then [(transform1 Op.Carry 0 (pointwise Op.Add b.digits (padded a b))).2]
            else []) := by
  have key : transform1 Op.Carry 0 (pointwise Op.Add b.digits (padded a b))
      = ((transform2 (Op.OpWithCarry2 Op.Add) 0 b.digits (padded a b)).1
          ++ (transform1 Op.Carry (transform2 (Op.OpWithCarry2 Op.Add) 0 b.digits
                (padded a b)).2 ((padded a b).drop b.digits.length)).1,
         (transform1 Op.Carry (transform2 (Op.OpWithCarry2 Op.Add) 0 b.digits
                (padded a b)).2 ((padded a b).drop b.digits.length)).2) := by
    rw [pointwise, transform1_append, transform2_opWithCarry]
  rw [key]
  simp only [BigInt.add, padded]
  split_ifs <;> simp

/-- What `operator+=` computes on digits in `0..9`: `max` digits in `0..9` and a final
carry of 0 or 1, appended when it is 1, which together denote the sum. -/
theorem add_spec (a b : BigInt) (ha : a.DigitsOk) (hb : b.DigitsOk) :
    ∃ (ds : List Int) (c : Int),
      (a.add b).digits = ds ++ (if c ≠ 0 then [c] else [])
      ∧ ds.length = max a.digits.length b.digits.length
      ∧ digitsOk ds ∧ (c = 0 ∨ c = 1)
      ∧ digitsValue ds + 10 ^ (max a.digits.length b.digits.length) * c
          = a.value + b.value := by
  have hlen : b.digits.length ≤ (padded a b).length := by
    rw [padded_length]; omega
  have hplen := pointwise_length Op.Add b.digits (padded a b) hlen
  have hrange : ∀ d ∈ pointwise Op.Add b.digits (padded a b), 0 ≤ d ∧ d ≤ 18 := by
    apply pointwise_bounds Op.Add (fun d => 0 ≤ d ∧ d ≤ 9) (fun d => 0 ≤ d ∧ d ≤ 9)
      (fun d => 0 ≤ d ∧ d ≤ 18) _ _ _ _ hb (padded_ok a b ha)
    · intro x y hx hy
      simp only [Op.Add]
      omega
    · intro x hx
      omega
  obtain ⟨h1, h2, h3⟩ := transform1_carry_bounds 18 1 (by norm_num) _ 0 hrange (by norm_num)
  have hv := transform1_carry_value (pointwise Op.Add b.digits (padded a b)) 0
  rw [hplen, padded_length, digitsValue_pointwise_add _ _ hlen, padded_value] at hv
  refine ⟨_, _, add_digits a b, ?_, h1, by omega, ?_⟩
  · rw [transform1_length, hplen, padded_length]
  · rw [hv]
    simp only [BigInt.value]
    ring

/-- The value of a sum is the sum of the values. -/
theorem value_add (a b : BigInt) (ha : a.DigitsOk) (hb : b.DigitsOk) :
    (a.add b).value = a.value + b.value := by
  obtain ⟨ds, c, hd, hl, _, hc, hv⟩ := add_spec a b ha hb
  rw [BigInt.value, hd, digitsValue_append, hl, ← hv]
  rcases hc with hc | hc <;> simp [hc, digitsValue]

theorem digitsOk_add (a b : BigInt) (ha : a.DigitsOk) (hb : b.DigitsOk) :
    (a.add b).DigitsOk := by
  obtain ⟨ds, c, hd, _, hok, hc, _⟩ := add_spec a b ha hb
  unfold BigInt.DigitsOk
  rw [hd]
  apply digitsOk_append.2
  refine ⟨hok, ?_⟩
  rcases hc with hc | hc
  · simp [hc, digitsOk_nil]
  · simp only [hc]
    intro d hd
    simp at hd
    omega

theorem length_add_ge (a b : BigInt) (ha : a.DigitsOk) (hb : b.DigitsOk) :
    max a.digits.length b.digits.length ≤ (a.add b).digits.length := by
  obtain ⟨ds, c, hd, hl, _, _, _⟩ := add_spec a b ha hb
  rw [hd, List.length_append, hl]
  omega

theorem length_add_le (a b : BigInt) (ha : a.DigitsOk) (hb : b.DigitsOk) :
    (a.add b).digits.length ≤ max a.digits.length b.digits.length + 1 := by
  obtain ⟨ds, c, hd, hl, _, _, _⟩ := add_spec a b ha hb
  rw [hd, List.length_append, hl]
  split_ifs <;> simp

/-- No digit is appended when the sum fits into the digits of the longer operand. -/
theorem length_add_of_lt (a b : BigInt) (ha : a.DigitsOk) (hb : b.DigitsOk)
    (h : a.value + b.value < 10 ^ (max a.digits.length b.digits.length)) :
    (a.add b).digits.length = max a.digits.length b.digits.length := by
  obtain ⟨ds, c, hd, hl, hok, hc, hv⟩ := add_spec a b ha hb
  have hb0 := (digitsValue_bounds hok).1
  have hc0 : c = 0 := by
    rcases hc with hc | hc
    · exact hc
    · rw [hc] at hv
      omega
  rw [hd, List.length_append, hl, hc0]
  simp

/-- One digit is appended when the sum does not fit into the digits of the longer operand. -/
theorem length_add_of_ge (a b : BigInt) (ha : a.DigitsOk) (hb : b.DigitsOk)
    (h : 10 ^ (max a.digits.length b.digits.length) ≤ a.value + b.value) :
    (a.add b).digits.length = max a.digits.length b.digits.length + 1 := by
  obtain ⟨ds, c, hd, hl, hok, hc, hv⟩ := add_spec a b ha hb
  have hb1 := (digitsValue_bounds hok).2
  rw [hl] at hb1
  have hc1 : c = 1 := by
    rcases hc with hc | hc
    · rw [hc] at hv
      omega
    · exact hc
  rw [hd, List.length_append, hl, hc1]
  simp

/-- The two transforms of `operator-=` are one borrow chain over the element-wise
differences. -/
theorem sub_digits (a b : BigInt) (h : b.digits.length ≤ a.digits.length) :
    a.sub b = some ⟨(transform1 Op.Borrow 0
      (pointwise (fun x y => y - x) b.digits a.digits)).1⟩ := by
  have hn : ¬ a.digits.length < b.digits.length := by omega
  simp only [BigInt.sub, hn, if_false, pointwise, transform1_append, transform2_subWithBorrow]

/-- What `operator-=` computes on digits in `0..9` when the minuend has at least as many
digits as the subtrahend: as many digits as the minuend, all in `0..9`, denoting the
difference plus `10^length` times a final borrow of 0 or 1, which is dropped. -/
theorem sub_spec (a b : BigInt) (ha : a.DigitsOk) (hb : b.DigitsOk)
    (h : b.digits.length ≤ a.digits.length) :
    ∃ (r : BigInt) (bw : Int), a.sub b = some r
      ∧ r.digits.length = a.digits.length ∧ r.DigitsOk ∧ (bw = 0 ∨ bw = 1)
      ∧ r.value = a.value - b.value + 10 ^ a.digits.length * bw := by
  have hplen := pointwise_length (fun x y => y - x) b.digits a.digits h
  have hrange : ∀ d ∈ pointwise (fun x y => y - x) b.digits a.digits, -9 ≤ d ∧ d ≤ 9 := by
    apply pointwise_bounds (fun x y => y - x) (fun d => 0 ≤ d ∧ d ≤ 9)
      (fun d => 0 ≤ d ∧ d ≤ 9) (fun d => -9 ≤ d ∧ d ≤ 9) _ _ _ _ hb ha
    · intro x y hx hy
      simp only
      omega
    · intro x hx
      omega
  obtain ⟨h1, h2, h3⟩ := transform1_borrow_spec _ 0 hrange (Or.inl rfl)
  refine ⟨_, _, sub_digits a b h, ?_, h1, h2, ?_⟩
  · simp only [transform1_length, hplen]
  · simp only [BigInt.value, h3, hplen, digitsValue_pointwise_sub _ _ h]
    ring

/-- Subtraction under its precondition: the difference, on the digits of the minuend. -/
theorem sub_spec_of_le (a b : BigInt) (ha : a.DigitsOk) (hb : b.DigitsOk)
    (h : b.digits.length ≤ a.digits.length) (hv : b.value ≤ a.value) :
    ∃ r : BigInt, a.sub b = some r
      ∧ r.digits.length = a.digits.length ∧ r.DigitsOk ∧ r.value = a.value - b.value := by
  obtain ⟨r, bw, hr, hl, hok, hbw, hval⟩ := sub_spec a b ha hb h
  refine ⟨r, hr, hl, hok, ?_⟩
  have hb1 := (digitsValue_bounds hok).2
  rw [hl] at hb1
  unfold BigInt.value at hval hv ⊢
  rcases hbw with hbw | hbw
  · rw [hval, hbw]; ring
  · rw [hbw] at hval
    omega

/-! ## Digit shift -/

theorem set_length_append (p q : List Int) (y x : Int) :
    (p ++ y :: q).set p.length x = p ++ x :: q := by
  rw [List.set_append]
  simp

theorem take_succ_eq (v : List Int) (k : Nat) (h : k < v.length) :
    v.take (k + 1) = v.take k ++ [v[k]] := by
  rw [List.take_succ, List.getElem?_eq_getElem h]
  rfl

theorem getD_cons_drop (a : List Int) (i : Nat) (h : i < a.length) :
    a.getD i 0 :: a.drop (i + 1) = a.drop i := by
  rw [List.getD_eq_getElem _ _ h, ← List.drop_eq_getElem_cons h]

/-- After `j` steps of the backward copy, the top `j` elements hold the top `j` digits of the
original vector and everything below is untouched. -/
theorem copyReverse_steps (a : List Int) (n j : Nat) (hj : j ≤ a.length) :
    (List.range j).foldl
        (fun w i => w.set (a.length + n - 1 - i) (w.getD (a.length - 1 - i) 0))
        (a ++ List.replicate n 0)
      = (a ++ List.replicate n 0).take (a.length + n - j) ++ a.drop (a.length - j) := by
  induction j with
  | zero =>
    simp
  | succ j ih =>
    rw [List.range_succ, List.foldl_append, ih (by omega)]
    simp only [List.foldl_cons, List.foldl_nil]
    have hv : (a ++ List.replicate n 0).length = a.length + n := by simp
    have hk : a.length + n - j = (a.length + n - 1 - j) + 1 := by omega
    have hklt : a.length + n - 1 - j < (a ++ List.replicate n 0).length := by omega
    have hread : ((a ++ List.replicate n 0).take (a.length + n - j)
        ++ a.drop (a.length - j)).getD (a.length - 1 - j) 0 = a.getD (a.length - 1 - j) 0 := by
      simp only [List.getD_eq_getElem?_getD]
      rw [List.getElem?_append_left (by rw [List.length_take]; omega)]
      rw [List.getElem?_take_of_lt (by omega)]
      rw [List.getElem?_append_left (by omega)]
    rw [hread, hk, take_succ_eq _ _ hklt, List.append_assoc, List.singleton_append]
    have hlen : ((a ++ List.replicate n 0).take (a.length + n - 1 - j)).length
        = a.length + n - 1 - j := by
      rw [List.length_take]; omega
    have hset := set_length_append ((a ++ List.replicate n 0).take (a.length + n - 1 - j))
      (a.drop (a.length - j)) ((a ++ List.replicate n 0)[a.length + n - 1 - j])
      (a.getD (a.length - 1 - j) 0)
    rw [hlen] at hset
    rw [hset]
    have h1 : a.length - j = (a.length - 1 - j) + 1 := by omega
    have h2 : a.length + n - (j + 1) = a.length + n - 1 - j := by omega
    have h3 : a.length - (j + 1) = a.length - 1 - j := by omega
    rw [h1, getD_cons_drop a _ (by omega), h2, h3]

theorem fill_steps (w : List Int) (x : Int) (i : Nat) (hi : i ≤ w.length) :
    (List.range i).foldl (fun v k => v.set k x) w = List.replicate i x ++ w.drop i := by
  induction i with
  | zero => simp
  | succ i ih =>
    rw [List.range_succ, List.foldl_append, ih (by omega)]
    simp only [List.foldl_cons, List.foldl_nil]
    rw [List.drop_eq_getElem_cons (by omega : i < w.length)]
    have hset := set_length_append (List.replicate i x) (w.drop (i + 1)) w[i] x
    rw [List.length_replicate] at hset
    rw [hset, List.replicate_succ']
    simp

/-- A shift by `n` puts `n` zero digits in front of the digits. -/
theorem shl_digits (a : BigInt) (n : Nat) :
    (a.shl n).digits = List.replicate n 0 ++ a.digits := by
  simp only [BigInt.shl, copyReverse, fill]
  rw [resize_of_length_le _ _ (by omega)]
  have hn : a.digits.length + n - a.digits.length = n := by omega
  rw [hn, copyReverse_steps a.digits n a.digits.length (le_refl _)]
  rw [fill_steps _ _ _ (by simp)]
  simp only [hn, Nat.sub_self, List.drop_zero]
  rw [List.drop_append_of_le_length (by simp)]
  have : ((a.digits ++ List.replicate n 0).take n).length = n := by simp
  rw [List.drop_of_length_le (by omega)]
  simp

theorem value_shl (a : BigInt) (n : Nat) : (a.shl n).value = a.value * 10 ^ n := by
  simp only [BigInt.value, shl_digits, digitsValue_append, digitsValue_replicate_zero,
    List.length_replicate]
  ring

theorem digitsOk_shl (a : BigInt) (n : Nat) (ha : a.DigitsOk) : (a.shl n).DigitsOk := by
  unfold BigInt.DigitsOk
  rw [shl_digits]
  exact digitsOk_append.2 ⟨digitsOk_replicate_zero n, ha⟩

theorem length_shl (a : BigInt) (n : Nat) :
    (a.shl n).digits.length = a.digits.length + n := by
  rw [shl_digits]
  simp
  omega

/-! ## The carry-draining loop, scalar and schoolbook multiplication -/

theorem wrap32_eq (x : Int) (h : -2147483648 ≤ x ∧ x < 2147483648) : wrap32 x = x := by
  unfold wrap32
  omega

theorem drainAux_spec (fuel : Nat) (c : Int) (hc : 0 ≤ c) (hf : c.natAbs ≤ fuel) :
    digitsOk (drainAux fuel c) ∧ digitsValue (drainAux fuel c) = c := by
  induction fuel generalizing c with
  | zero =>
    have : c = 0 := by omega
    simp [drainAux, digitsValue, digitsOk_nil, this]
  | succ k ih =>
    by_cases h0 : c = 0
    · simp [drainAux, digitsValue, digitsOk_nil, h0]
    · simp only [drainAux, h0, if_false, digitsValue]
      rw [Int.tmod_eq_emod hc (by norm_num), Int.tdiv_eq_ediv hc (by norm_num)]
      obtain ⟨h1, h2⟩ := ih (c / 10) (by omega) (by omega)
      rw [digitsOk_cons, h2]
      exact ⟨⟨by omega, h1⟩, by omega⟩

/-- The draining loop on a non-negative carry pushes the decimal digits of the carry. -/
theorem drain_spec (c : Int) (hc : 0 ≤ c) : digitsOk (drain c) ∧ digitsValue (drain c) = c :=
  drainAux_spec c.natAbs c hc (le_refl _)

theorem drain_zero : drain 0 = [] := rfl

theorem map_mul_eq (l : List Int) (k : Int) (hl : digitsOk l)
    (hk : 0 ≤ k ∧ k ≤ 214748364) : l.map (Op.Mul k) = l.map (fun a => a * k) := by
  apply List.map_congr_left
  intro a ha
  have := hl a ha
  apply wrap32_eq
  constructor
  · nlinarith
  · nlinarith

theorem digitsValue_map_mul (l : List Int) (k : Int) :
    digitsValue (l.map (fun a => a * k)) = digitsValue l * k := by
  induction l with
  | nil => simp [digitsValue]
  | cons x xs ih =>
    simp only [List.map_cons, digitsValue, ih]
    ring

theorem map_mul_bounds (l : List Int) (k : Int) (hl : digitsOk l) (hk : 0 ≤ k) :
    ∀ d ∈ l.map (fun a => a * k), 0 ≤ d ∧ d ≤ 9 * k := by
  intro d hd
  obtain ⟨a, ha, rfl⟩ := List.mem_map.1 hd
  have := hl a ha
  constructor
  · nlinarith
  · nlinarith

/-- What `operator*=(int)` computes on digits in `0..9` for a multiplier in
`0..214748364`, the range in which `9 * n` and `9 * n + carry` stay below `2^31`. -/
theorem mulInt_spec (a : BigInt) (k : Int) (ha : a.DigitsOk) (hk : 0 ≤ k ∧ k ≤ 214748364) :
    (a.mulInt k).DigitsOk ∧ (a.mulInt k).value = k * a.value := by
  have hd : (a.mulInt k).digits
      = (transform1 Op.Carry 0 (a.digits.map (fun x => x * k))).1
        ++ drain (transform1 Op.Carry 0 (a.digits.map (fun x => x * k))).2 := by
    simp only [BigInt.mulInt, transform1_opWithCarry, map_mul_eq _ _ ha hk]
  obtain ⟨h1, h2, _⟩ := transform1_carry_bounds (9 * k) k (by omega) _ 0
    (map_mul_bounds a.digits k ha hk.1) ⟨le_refl _, hk.1⟩
  obtain ⟨h4, h5⟩ := drain_spec _ h2
  have hv := transform1_carry_value (a.digits.map (fun x => x * k)) 0
  rw [digitsValue_map_mul] at hv
  constructor
  · unfold BigInt.DigitsOk
    rw [hd]
    exact digitsOk_append.2 ⟨h1, h4⟩
  · simp only [BigInt.value, hd, digitsValue_append, h5, transform1_length, List.length_map]
    simp only [List.length_map] at hv
    rw [hv]
    ring

theorem mul_eq_mulBody (a b : BigInt) :
    a.mul b = if a.digits.length < b.digits.length then mulBody b a else mulBody a b := by
  unfold BigInt.mul mulBody
  split_ifs <;> rfl

theorem transformInto_row (d : Int) (l v : List Int) :
    transformInto (Op.Mul d) l (resize v l.length) = l.map (Op.Mul d) := by
  unfold transformInto
  rw [List.drop_of_length_le (by rw [resize_length])]
  simp

/-- The accumulation loop over the rows of the digits `ds`, starting at shift `i`: the
length is kept, the elements stay non-negative and the value grows by
`10^i * value(max_op) * value(ds)`. -/
theorem accumulate_spec (l : List Int) (hl : digitsOk l) (ds : List Int) (hds : digitsOk ds)
    (i : Nat) (digits : List Int) (hlen : l.length + i + ds.length ≤ digits.length + 1)
    (hnn : ∀ d ∈ digits, 0 ≤ d) :
    (BigInt.accumulate (ds.map fun d => (⟨l.map (Op.Mul d)⟩ : BigInt)) i digits).length
        = digits.length
      ∧ (∀ d ∈ BigInt.accumulate (ds.map fun d => (⟨l.map (Op.Mul d)⟩ : BigInt)) i digits,
          0 ≤ d)
      ∧ digitsValue (BigInt.accumulate (ds.map fun d => (⟨l.map (Op.Mul d)⟩ : BigInt)) i
          digits) = digitsValue digits + 10 ^ i * (digitsValue l * digitsValue ds) := by
  induction ds generalizing i digits with
  | nil =>
    refine ⟨rfl, hnn, ?_⟩
    simp [BigInt.accumulate, digitsValue]
  | cons d ds ih =>
    rw [digitsOk_cons] at hds
    simp only [List.length_cons] at hlen
    simp only [List.map_cons, BigInt.accumulate]
    have hrow : ((⟨l.map (Op.Mul d)⟩ : BigInt).shl i).digits
        = List.replicate i 0 ++ l.map (fun a => a * d) := by
      rw [shl_digits, map_mul_eq l d hl ⟨hds.1.1, by omega⟩]
    have hrowlen : ((⟨l.map (Op.Mul d)⟩ : BigInt).shl i).digits.length ≤ digits.length := by
      rw [hrow]
      simp only [List.length_append, List.length_replicate, List.length_map]
      omega
    rw [transformZip_eq_pointwise _ _ _ hrowlen]
    have hnn2 : ∀ x ∈ pointwise Op.Add ((⟨l.map (Op.Mul d)⟩ : BigInt).shl i).digits digits,
        0 ≤ x := by
      apply pointwise_bounds Op.Add (fun x => 0 ≤ x) (fun x => 0 ≤ x) (fun x => 0 ≤ x)
        _ _ _ _ _ hnn
      · intro x y hx hy
        simp only [Op.Add]
        omega
      · intro x hx
        exact hx
      · rw [hrow]
        intro x hx
        rcases List.mem_append.1 hx with hx | hx
        · rw [List.mem_replicate] at hx
          omega
        · exact (map_mul_bounds l d hl hds.1.1 x hx).1
    obtain ⟨h1, h2, h3⟩ := ih hds.2 (i + 1)
      (pointwise Op.Add ((⟨l.map (Op.Mul d)⟩ : BigInt).shl i).digits digits)
      (by rw [pointwise_length _ _ _ hrowlen]; omega) hnn2
    refine ⟨by rw [h1, pointwise_length _ _ _ hrowlen], h2, ?_⟩
    rw [h3, digitsValue_pointwise_add _ _ hrowlen, hrow, digitsValue_append,
      digitsValue_replicate_zero, digitsValue_map_mul, List.length_replicate]
    simp only [digitsValue, pow_succ]
    ring

theorem mulBody_spec (mx mn : BigInt) (hmx : mx.DigitsOk) (hmn : mn.DigitsOk)
    (hne : mn.digits ≠ []) :
    ∃ r : BigInt, mulBody mx mn = some r
      ∧ r.digits.length = mx.digits.length + mn.digits.length
      ∧ r.DigitsOk ∧ r.value = mx.value * mn.value := by
  obtain ⟨d0, ds, hmnd⟩ := List.exists_cons_of_ne_nil hne
  have hds : digitsOk (d0 :: ds) := by rw [← hmnd]; exact hmn
  rw [digitsOk_cons] at hds
  have hrow0 : mx.digits.map (Op.Mul d0) = mx.digits.map (fun a => a * d0) :=
    map_mul_eq _ _ hmx ⟨hds.1.1, by omega⟩
  -- the accumulated columns before the carry pass
  have hres : resize (mx.digits.map (fun a => a * d0)) (mx.digits.length + (ds.length + 1))
      = mx.digits.map (fun a => a * d0) ++ List.replicate (ds.length + 1) 0 := by
    rw [resize_of_length_le _ _ (by simp)]
    simp
  have hnn0 : ∀ d ∈ mx.digits.map (fun a => a * d0) ++ List.replicate (ds.length + 1) 0,
      0 ≤ d := by
    intro d hd
    rcases List.mem_append.1 hd with hd | hd
    · exact (map_mul_bounds _ d0 hmx hds.1.1 d hd).1
    · rw [List.mem_replicate] at hd
      omega
  obtain ⟨h1, h2, h3⟩ := accumulate_spec mx.digits hmx ds hds.2 1
    (mx.digits.map (fun a => a * d0) ++ List.replicate (ds.length + 1) 0)
    (by simp; omega) hnn0
  obtain ⟨h4, h5⟩ := transform1_carry_nonneg _ 0 h2 (le_refl _)
  have hv := transform1_carry_value (BigInt.accumulate
    (ds.map fun d => (⟨mx.digits.map (Op.Mul d)⟩ : BigInt)) 1
    (mx.digits.map (fun a => a * d0) ++ List.replicate (ds.length + 1) 0)) 0
  rw [h1, h3, digitsValue_append, digitsValue_replicate_zero, digitsValue_map_mul] at hv
  simp only [List.length_append, List.length_map, List.length_replicate] at hv h1
  -- the product is below `10^(sum of the lengths)`, so no carry is left
  have hbmx := digitsValue_bounds hmx
  have hbmn := digitsValue_bounds hmn
  rw [hmnd] at hbmn
  simp only [digitsValue, List.length_cons] at hbmn
  have hprod : digitsValue mx.digits * (d0 + 10 * digitsValue ds)
      < 10 ^ (mx.digits.length + (ds.length + 1)) := by
    rw [pow_add]
    have hp1 : (0 : Int) < 10 ^ mx.digits.length := by positivity
    have hp2 : (0 : Int) < 10 ^ (ds.length + 1) := by positivity
    nlinarith
  have hout0 := (digitsValue_bounds h4).1
  have hcarry : (transform1 Op.Carry 0 (BigInt.accumulate
      (ds.map fun d => (⟨mx.digits.map (Op.Mul d)⟩ : BigInt)) 1
      (mx.digits.map (fun a => a * d0) ++ List.replicate (ds.length + 1) 0))).2 = 0 := by
    by_contra hne0
    have hpos : 1 ≤ (transform1 Op.Carry 0 (BigInt.accumulate
      (ds.map fun d => (⟨mx.digits.map (Op.Mul d)⟩ : BigInt)) 1
      (mx.digits.map (fun a => a * d0) ++ List.replicate (ds.length + 1) 0))).2 := by omega
    have hp : (0 : Int) < 10 ^ (mx.digits.length + (ds.length + 1)) := by positivity
    nlinarith
  have hbody : mulBody mx mn = some ⟨(transform1 Op.Carry 0 (BigInt.accumulate
      (ds.map fun d => (⟨mx.digits.map (Op.Mul d)⟩ : BigInt)) 1
      (mx.digits.map (fun a => a * d0) ++ List.replicate (ds.length + 1) 0))).1⟩ := by
    simp only [mulBody, hmnd, List.map_cons, transformInto_row, hrow0, List.length_cons, hres,
      hcarry, drain_zero, List.append_nil]
  refine ⟨_, hbody, ?_, h4, ?_⟩
  · simp only [transform1_length, h1, hmnd, List.length_cons]
  · simp only [BigInt.value, hmnd, digitsValue]
    rw [hcarry] at hv
    linarith

/-- What `operator*=(const BigInt &)` computes on non-empty operands with digits in `0..9`:
exactly as many digits as both operands together, all in `0..9`, denoting the product. -/
theorem mul_spec (a b : BigInt) (ha : a.WellFormed) (hb : b.WellFormed) :
    ∃ r : BigInt, a.mul b = some r
      ∧ r.digits.length = a.digits.length + b.digits.length
      ∧ r.DigitsOk ∧ r.value = a.value * b.value := by
  rw [mul_eq_mulBody]
  split_ifs with h
  · obtain ⟨r, h1, h2, h3, h4⟩ := mulBody_spec b a hb.2 ha.2 ha.1
    exact ⟨r, h1, by omega, h3, by rw [h4]; ring⟩
  · exact mulBody_spec a b ha.2 hb.2 hb.1

/-! ## Splitting and the Karatsuba recursion -/

theorem copyInto_resize (src v : List Int) : copyInto src (resize v src.length) = src := by
  unfold copyInto
  rw [List.drop_of_length_le (by rw [resize_length])]
  simp

/-- The procedure `split` cuts both operands at `m = min(size1, size2) / 2`, whatever the
output objects held before. -/
theorem split_eq (op1 op2 x0 x1 y0 y1 : BigInt) :
    split op1 op2 x0 x1 y0 y1
      = (⟨op1.digits.take (min op1.digits.length op2.digits.length / 2)⟩,
         ⟨op1.digits.drop (min op1.digits.length op2.digits.length / 2)⟩,
         ⟨op2.digits.take (min op1.digits.length op2.digits.length / 2)⟩,
         ⟨op2.digits.drop (min op1.digits.length op2.digits.length / 2)⟩,
         min op1.digits.length op2.digits.length / 2) := by
  have hm : (if op1.digits.length > op2.digits.length then op2.digits.length
      else op1.digits.length) = min op1.digits.length op2.digits.length := by
    split_ifs <;> omega
  simp only [split, hm]
  have h1 : (op1.digits.take (min op1.digits.length op2.digits.length / 2)).length
      = min op1.digits.length op2.digits.length / 2 := by
    rw [List.length_take]; omega
  have h2 : (op2.digits.take (min op1.digits.length op2.digits.length / 2)).length
      = min op1.digits.length op2.digits.length / 2 := by
    rw [List.length_take]; omega
  have h3 : (op1.digits.drop (min op1.digits.length op2.digits.length / 2)).length
      = op1.digits.length - min op1.digits.length op2.digits.length / 2 := by
    rw [List.length_drop]
  have h4 : (op2.digits.drop (min op1.digits.length op2.digits.length / 2)).length
      = op2.digits.length - min op1.digits.length op2.digits.length / 2 := by
    rw [List.length_drop]
  have e1 := copyInto_resize (op1.digits.take (min op1.digits.length op2.digits.length / 2))
    x0.digits
  have e2 := copyInto_resize (op1.digits.drop (min op1.digits.length op2.digits.length / 2))
    x1.digits
  have e3 := copyInto_resize (op2.digits.take (min op1.digits.length op2.digits.length / 2))
    y0.digits
  have e4 := copyInto_resize (op2.digits.drop (min op1.digits.length op2.digits.length / 2))
    y1.digits
  rw [h1] at e1
  rw [h2] at e3
  rw [h3] at e2
  rw [h4] at e4
  rw [e1, e2, e3, e4]

/-- One unfolding of `karatsuba` above the threshold, with the halves written out. -/
theorem karatsuba_rec (op1 op2 : BigInt)
    (h : ¬ (op1.digits.length < 30 ∨ op2.digits.length < 30)) :
    karatsuba op1 op2 =
      match karatsuba ⟨op1.digits.take (min op1.digits.length op2.digits.length / 2)⟩
          ⟨op2.digits.take (min op1.digits.length op2.digits.length / 2)⟩ with
      | none => none
      | some z0 =>
        match karatsuba ⟨op1.digits.drop (min op1.digits.length op2.digits.length / 2)⟩
            ⟨op2.digits.drop (min op1.digits.length op2.digits.length / 2)⟩ with
        | none => none
        | some z2 =>
          match karatsuba
              ((⟨op1.digits.take (min op1.digits.length op2.digits.length / 2)⟩ : BigInt).add
                ⟨op1.digits.drop (min op1.digits.length op2.digits.length / 2)⟩)
              ((⟨op2.digits.take (min op1.digits.length op2.digits.length / 2)⟩ : BigInt).add
                ⟨op2.digits.drop (min op1.digits.length op2.digits.length / 2)⟩) with
          | none => none
          | some p =>
            match p.sub z2 with
            | none => none
            | some d =>
              match d.sub z0 with
              | none => none
              | some z1 =>
                some ((z0.add (z1.shl (min op1.digits.length op2.digits.length / 2))).add
                  (z2.shl (2 * (min op1.digits.length op2.digits.length / 2)))) := by
  rw [karatsuba]
  simp only [h, if_false, split_eq]

theorem karatsuba_base (op1 op2 : BigInt)
    (h : op1.digits.length < 30 ∨ op2.digits.length < 30) :
    karatsuba op1 op2 = op1.mul op2 := by
  rw [karatsuba]
  simp only [h, if_true]

theorem wellFormed_of_length_pos (a : BigInt) (ha : a.DigitsOk) (h : 0 < a.digits.length) :
    a.WellFormed :=
  ⟨List.ne_nil_of_length_pos h, ha⟩

theorem value_nonneg (a : BigInt) (ha : a.DigitsOk) : 0 ≤ a.value :=
  (digitsValue_bounds ha).1

theorem value_lt (a : BigInt) (ha : a.DigitsOk) : a.value < 10 ^ a.digits.length :=
  (digitsValue_bounds ha).2

/-- The value of an operand from the values of its two halves. -/
theorem value_split (a : BigInt) (m : Nat) (hm : m ≤ a.digits.length) :
    a.value = (⟨a.digits.take m⟩ : BigInt).value
      + 10 ^ m * (⟨a.digits.drop m⟩ : BigInt).value := by
  have h := digitsValue_take_add_drop a.digits m
  rw [List.length_take, Nat.min_eq_left hm] at h
  simp only [BigInt.value]
  exact h.symm

/-- The two subtractions of the recursive step: with `z0`, `z2` and `p` the products of the
low halves, of the high halves and of the sums of the halves, both subtractions return,
neither leaves its precondition, and `z1` has the digits of `p` and the value of the
middle term. -/
theorem karatsuba_middle (z0 z2 p : BigInt) (vx0 vx1 vy0 vy1 : Int)
    (hx0 : 0 ≤ vx0) (hx1 : 0 ≤ vx1) (hy0 : 0 ≤ vy0) (hy1 : 0 ≤ vy1)
    (hz0ok : z0.DigitsOk) (hz2ok : z2.DigitsOk) (hpok : p.DigitsOk)
    (hz0v : z0.value = vx0 * vy0) (hz2v : z2.value = vx1 * vy1)
    (hpv : p.value = (vx0 + vx1) * (vy0 + vy1))
    (hl2 : z2.digits.length ≤ p.digits.length) (hl0 : z0.digits.length ≤ p.digits.length) :
    ∃ d z1 : BigInt, p.sub z2 = some d ∧ d.sub z0 = some z1
      ∧ z1.digits.length = p.digits.length ∧ z1.DigitsOk
      ∧ z1.value = vx0 * vy1 + vx1 * vy0 := by
  have hq00 := mul_nonneg hx0 hy0
  have hq01 := mul_nonneg hx0 hy1
  have hq10 := mul_nonneg hx1 hy0
  obtain ⟨d, hd, hdlen, hdok, hdv⟩ := sub_spec_of_le p z2 hpok hz2ok hl2
    (by rw [hz2v, hpv]; linarith)
  obtain ⟨z1, hz1, hz1len, hz1ok, hz1v⟩ := sub_spec_of_le d z0 hdok hz0ok
    (by rw [hdlen]; exact hl0) (by rw [hz0v, hdv, hpv, hz2v]; linarith)
  refine ⟨d, z1, hd, hz1, by rw [hz1len, hdlen], hz1ok, ?_⟩
  rw [hz1v, hdv, hpv, hz2v, hz0v]
  ring

/-- The recombination `z0 + (z1 << m) + (z2 << 2m)` of the recursive step: when the shifted
`z2` has `n` digits, the shifted `z1` fewer than `n`, `z0` at most `n`, and the value of the
whole is below `10^n`, the result has exactly `n` digits in `0..9`. -/
theorem karatsuba_recombine (z0 z1 z2 : BigInt) (m n : Nat)
    (hz0ok : z0.DigitsOk) (hz1ok : z1.DigitsOk) (hz2ok : z2.DigitsOk)
    (hl0 : z0.digits.length < n) (hl1 : z1.digits.length + m < n)
    (hl2 : z2.digits.length + 2 * m = n)
    (hlt : z0.value + z1.value * 10 ^ m + z2.value * 10 ^ (2 * m) < 10 ^ n) :
    ((z0.add (z1.shl m)).add (z2.shl (2 * m))).digits.length = n
      ∧ ((z0.add (z1.shl m)).add (z2.shl (2 * m))).DigitsOk
      ∧ ((z0.add (z1.shl m)).add (z2.shl (2 * m))).value
          = z0.value + z1.value * 10 ^ m + z2.value * 10 ^ (2 * m) := by
  have hz1s := digitsOk_shl z1 m hz1ok
  have hz2s := digitsOk_shl z2 (2 * m) hz2ok
  have hs1ok := digitsOk_add z0 (z1.shl m) hz0ok hz1s
  have hs1le := length_add_le z0 (z1.shl m) hz0ok hz1s
  have hs1v := value_add z0 (z1.shl m) hz0ok hz1s
  have hresv := value_add _ _ hs1ok hz2s
  rw [length_shl] at hs1le
  have hz2slen : (z2.shl (2 * m)).digits.length = n := by
    rw [length_shl]; exact hl2
  have hmax : max ((z0.add (z1.shl m)).digits.length) ((z2.shl (2 * m)).digits.length)
      = n := by
    rw [hz2slen]; omega
  have hval : ((z0.add (z1.shl m)).add (z2.shl (2 * m))).value
      = z0.value + z1.value * 10 ^ m + z2.value * 10 ^ (2 * m) := by
    rw [hresv, hs1v, value_shl, value_shl]
  refine ⟨?_, digitsOk_add _ _ hs1ok hz2s, hval⟩
  rw [length_add_of_lt _ _ hs1ok hz2s, hmax]
  rw [hmax, ← hresv, hval]
  exact hlt

/-- What `karatsuba` computes on non-empty operands with digits in `0..9`: a result (no
subtraction leaves its precondition), with exactly as many digits as both operands together,
all in `0..9`, denoting the product. -/
theorem karatsuba_spec (n : Nat) : ∀ (op1 op2 : BigInt), op1.digits.length = n →
    op1.WellFormed → op2.WellFormed →
    ∃ r : BigInt, karatsuba op1 op2 = some r
      ∧ r.digits.length = op1.digits.length + op2.digits.length
      ∧ r.DigitsOk ∧ r.value = op1.value * op2.value := by
  induction n using Nat.strong_induction_on with
  | _ n ih =>
    intro op1 op2 hn h1 h2
    by_cases hthr : op1.digits.length < 30 ∨ op2.digits.length < 30
    · rw [karatsuba_base op1 op2 hthr]
      exact mul_spec op1 op2 h1 h2
    · rw [karatsuba_rec op1 op2 hthr]
      have hl1 : 30 ≤ op1.digits.length := by omega
      have hl2 : 30 ≤ op2.digits.length := by omega
      obtain ⟨m, hm⟩ : ∃ m, m = min op1.digits.length op2.digits.length / 2 := ⟨_, rfl⟩
      rw [← hm]
      have hm15 : 15 ≤ m := by omega
      have hm1 : 2 * m ≤ op1.digits.length := by omega
      have hm2 : 2 * m ≤ op2.digits.length := by omega
      have hv1 := value_split op1 m (by omega)
      have hv2 := value_split op2 m (by omega)
      have hprod : op1.value * op2.value
          < 10 ^ (op1.digits.length + op2.digits.length) := by
        rw [pow_add]
        exact mul_lt_mul'' (value_lt op1 h1.2) (value_lt op2 h2.2) (value_nonneg op1 h1.2)
          (value_nonneg op2 h2.2)
      -- the four halves
      obtain ⟨x0, hx0⟩ : ∃ x0 : BigInt, x0 = ⟨op1.digits.take m⟩ := ⟨_, rfl⟩
      obtain ⟨x1, hx1⟩ : ∃ x1 : BigInt, x1 = ⟨op1.digits.drop m⟩ := ⟨_, rfl⟩
      obtain ⟨y0, hy0⟩ : ∃ y0 : BigInt, y0 = ⟨op2.digits.take m⟩ := ⟨_, rfl⟩
      obtain ⟨y1, hy1⟩ : ∃ y1 : BigInt, y1 = ⟨op2.digits.drop m⟩ := ⟨_, rfl⟩
      have hx0ok : x0.DigitsOk := by rw [hx0]; exact digitsOk_take h1.2 m
      have hx1ok : x1.DigitsOk := by rw [hx1]; exact digitsOk_drop h1.2 m
      have hy0ok : y0.DigitsOk := by rw [hy0]; exact digitsOk_take h2.2 m
      have hy1ok : y1.DigitsOk := by rw [hy1]; exact digitsOk_drop h2.2 m
      have hx0len : x0.digits.length = m := by
        rw [hx0]; simp only [List.length_take]; omega
      have hx1len : x1.digits.length = op1.digits.length - m := by
        rw [hx1]; simp only [List.length_drop]
      have hy0len : y0.digits.length = m := by
        rw [hy0]; simp only [List.length_take]; omega
      have hy1len : y1.digits.length = op2.digits.length - m := by
        rw [hy1]; simp only [List.length_drop]
      simp only [← hx0, ← hx1, ← hy0, ← hy1] at hv1 hv2 ⊢
      clear hx0 hx1 hy0 hy1
      -- z0 and z2
      obtain ⟨z0, hz0, hz0len, hz0ok, hz0v⟩ := ih m (by omega) x0 y0 hx0len
        (wellFormed_of_length_pos _ hx0ok (by omega))
        (wellFormed_of_length_pos _ hy0ok (by omega))
      obtain ⟨z2, hz2, hz2len, hz2ok, hz2v⟩ := ih (op1.digits.length - m) (by omega)
        x1 y1 hx1len
        (wellFormed_of_length_pos _ hx1ok (by omega))
        (wellFormed_of_length_pos _ hy1ok (by omega))
      -- the product of the sums of the halves
      have hsxok := digitsOk_add x0 x1 hx0ok hx1ok
      have hsyok := digitsOk_add y0 y1 hy0ok hy1ok
      have hsxge := length_add_ge x0 x1 hx0ok hx1ok
      have hsxle := length_add_le x0 x1 hx0ok hx1ok
      have hsyge := length_add_ge y0 y1 hy0ok hy1ok
      have hsyle := length_add_le y0 y1 hy0ok hy1ok
      obtain ⟨p, hp, hplen, hpok, hpv⟩ := ih (x0.add x1).digits.length (by omega)
        (x0.add x1) (y0.add y1) rfl
        (wellFormed_of_length_pos _ hsxok (by omega))
        (wellFormed_of_length_pos _ hsyok (by omega))
      rw [value_add x0 x1 hx0ok hx1ok, value_add y0 y1 hy0ok hy1ok] at hpv
      -- the two subtractions
      obtain ⟨d, z1, hd, hz1, hz1len, hz1ok, hz1v⟩ := karatsuba_middle z0 z2 p
        x0.value x1.value y0.value y1.value (value_nonneg _ hx0ok) (value_nonneg _ hx1ok)
        (value_nonneg _ hy0ok) (value_nonneg _ hy1ok) hz0ok hz2ok hpok hz0v hz2v hpv
        (by omega) (by omega)
      simp only [hz0, hz2, hp, hd, hz1]
      -- the recombination
      have hval : z0.value + z1.value * 10 ^ m + z2.value * 10 ^ (2 * m)
          = op1.value * op2.value := by
        rw [hz0v, hz1v, hz2v, hv1, hv2, two_mul, pow_add]
        ring
      obtain ⟨hrlen, hrok, hrv⟩ := karatsuba_recombine z0 z1 z2 m
        (op1.digits.length + op2.digits.length) hz0ok hz1ok hz2ok (by omega) (by omega)
        (by omega) (by rw [hval]; exact hprod)
      exact ⟨_, rfl, hrlen, hrok, hrv.trans hval⟩

/-- The function `karatsuba` on well-formed operands. -/
theorem karatsuba_correct (op1 op2 : BigInt) (h1 : op1.WellFormed) (h2 : op2.WellFormed) :
    ∃ r : BigInt, karatsuba op1 op2 = some r
      ∧ r.digits.length = op1.digits.length + op2.digits.length
      ∧ r.DigitsOk ∧ r.value = op1.value * op2.value :=
  karatsuba_spec op1.digits.length op1 op2 rfl h1 h2

/-! ## The claims -/

/-- C1. Cross-algorithm agreement: for all well-formed operands (non-empty, digits in `0..9`),
of any lengths, `karatsuba(a, b)` and the schoolbook product `a * b` both return, and their
results denote the same numeric value, the value of a sequence `d` being the sum of
`d[i] * 10^i`. -/
theorem karatsuba_agrees_with_mul (a b : BigInt) (ha : a.WellFormed) (hb : b.WellFormed) :
    ∃ rk rs : BigInt, karatsuba a b = some rk ∧ a.mul b = some rs
      ∧ (∑ i : Fin rk.digits.length, rk.digits.get i * 10 ^ (i : Nat))
        = ∑ i : Fin rs.digits.length, rs.digits.get i * 10 ^ (i : Nat) := by
  obtain ⟨rk, hk, _, _, hkv⟩ := karatsuba_correct a b ha hb
  obtain ⟨rs, hs, _, _, hsv⟩ := mul_spec a b ha hb
  refine ⟨rk, rs, hk, hs, ?_⟩
  rw [← digitsValue_eq_sum, ← digitsValue_eq_sum]
  exact hkv.trans hsv.symm

/-- Instance of C1 at a 30-digit and a 31-digit operand, where the recursion is entered. -/
theorem karatsuba_agrees_with_mul_witness :
    (BigInt.ofString "123456789123456789123456789123").WellFormed
      ∧ (BigInt.ofString "9876543219876543219876543219876").WellFormed
      ∧ ∃ rk rs : BigInt,
        karatsuba (BigInt.ofString "123456789123456789123456789123")
            (BigInt.ofString "9876543219876543219876543219876") = some rk
        ∧ (BigInt.ofString "123456789123456789123456789123").mul
            (BigInt.ofString "9876543219876543219876543219876") = some rs
        ∧ (∑ i : Fin rk.digits.length, rk.digits.get i * 10 ^ (i : Nat))
          = ∑ i : Fin rs.digits.length, rs.digits.get i * 10 ^ (i : Nat) :=
  ⟨by decide, by decide, karatsuba_agrees_with_mul _ _ (by decide) (by decide)⟩

/-- C2. Schoolbook multiplication is correct: for all well-formed operands (non-empty, digits
in `0..9`), `a * b` returns and the value of the result is `value(a) * value(b)`. -/
theorem mul_value (a b : BigInt) (ha : a.WellFormed) (hb : b.WellFormed) :
    ∃ r : BigInt, a.mul b = some r ∧ r.value = a.value * b.value := by
  obtain ⟨r, hr, _, _, hv⟩ := mul_spec a b ha hb
  exact ⟨r, hr, hv⟩

/-- Instance of C2 at `999 * 999`, whose result is the digit sequence of `998001`. -/
theorem mul_value_witness :
    (BigInt.ofString "999").mul (BigInt.ofString "999") = some (BigInt.ofString "998001")
      ∧ ∃ r : BigInt, (BigInt.ofString "999").mul (BigInt.ofString "999") = some r
        ∧ r.value = (BigInt.ofString "999").value * (BigInt.ofString "999").value :=
  ⟨by decide, mul_value _ _ (by decide) (by decide)⟩

/-- C3. Subtraction under its precondition: for operands with digits in `0..9`, with
`len(a) ≥ len(b)` and `value(a) ≥ value(b)`, `a - b` returns a result of exactly `len(a)`
digits, every digit in `0..9`, of value `value(a) - value(b)`. -/
theorem sub_correct (a b : BigInt) (ha : a.WellFormed) (hb : b.WellFormed)
    (hlen : b.digits.length ≤ a.digits.length) (hval : b.value ≤ a.value) :
    ∃ r : BigInt, a.sub b = some r ∧ r.digits.length = a.digits.length ∧ r.DigitsOk
      ∧ r.value = a.value - b.value :=
  sub_spec_of_le a b ha.2 hb.2 hlen hval

/-- Instance of C3 at `1000 - 1`, whose result is the four-digit sequence `0999`. -/
theorem sub_correct_witness :
    (BigInt.ofString "1000").sub (BigInt.ofString "1") = some (BigInt.ofString "0999")
      ∧ ∃ r : BigInt, (BigInt.ofString "1000").sub (BigInt.ofString "1") = some r
        ∧ r.digits.length = (BigInt.ofString "1000").digits.length ∧ r.DigitsOk
        ∧ r.value = (BigInt.ofString "1000").value - (BigInt.ofString "1").value :=
  ⟨by decide, sub_correct _ _ (by decide) (by decide) (by decide) (by decide)⟩

/-- C4. Addition is correct: for operands with digits in `0..9`, whichever is the longer,
the value of `a + b` is `value(a) + value(b)`. -/
theorem add_value (a b : BigInt) (ha : a.DigitsOk) (hb : b.DigitsOk) :
    (a.add b).value = a.value + b.value :=
  value_add a b ha hb

/-- Instance of C4 at `999 + 1`, with the shorter operand on the right, and at `1 + 999`. -/
theorem add_value_witness :
    ((BigInt.ofString "999").add (BigInt.ofString "1")).value
        = (BigInt.ofString "999").value + (BigInt.ofString "1").value
      ∧ ((BigInt.ofString "1").add (BigInt.ofString "999")).value
        = (BigInt.ofString "1").value + (BigInt.ofString "999").value :=
  ⟨add_value _ _ (by decide) (by decide), add_value _ _ (by decide) (by decide)⟩

/-- C5, as stated, fails for scalar multiplication: the digit `9` times the `int`
`300000000` leaves the 32-bit range, and the result holds negative elements. -/
theorem mulInt_digit_range_counterexample :
    (BigInt.ofString "9").DigitsOk ∧ (0 : Int) ≤ 300000000
      ∧ ((BigInt.ofString "9").mulInt 300000000).digits
          = [-6, -9, -2, -7, -6, -9, -4, -9, -5, -1]
      ∧ ¬ ((BigInt.ofString "9").mulInt 300000000).DigitsOk := by
  decide

/-- C5, amended. Digit-range invariant: if every digit of every operand is in `0..9`, then
every digit of the result is in `0..9`, for add, subtract (with `len(a) ≥ len(b)`), scalar
multiply with `0 ≤ k ≤ 214748364`, digit shift, and schoolbook multiply and karatsuba on
non-empty operands; the last three return a result. -/
theorem digit_range_invariant (a b : BigInt) (k : Int) (n : Nat) (ha : a.DigitsOk)
    (hb : b.DigitsOk) (hk0 : 0 ≤ k) (hk1 : k ≤ 214748364) :
    (a.add b).DigitsOk
      ∧ (b.digits.length ≤ a.digits.length → ∃ r : BigInt, a.sub b = some r ∧ r.DigitsOk)
      ∧ (a.mulInt k).DigitsOk
      ∧ (a.shl n).DigitsOk
      ∧ (a.digits ≠ [] → b.digits ≠ [] →
          (∃ r : BigInt, a.mul b = some r ∧ r.DigitsOk)
          ∧ (∃ r : BigInt, karatsuba a b = some r ∧ r.DigitsOk)) := by
  refine ⟨digitsOk_add a b ha hb, ?_, (mulInt_spec a k ha ⟨hk0, hk1⟩).1, digitsOk_shl a n ha,
    ?_⟩
  · intro hlen
    obtain ⟨r, _, hr, _, hok, _, _⟩ := sub_spec a b ha hb hlen
    exact ⟨r, hr, hok⟩
  · intro hna hnb
    obtain ⟨r, hr, _, hok, _⟩ := mul_spec a b ⟨hna, ha⟩ ⟨hnb, hb⟩
    obtain ⟨rk, hrk, _, hkok, _⟩ := karatsuba_correct a b ⟨hna, ha⟩ ⟨hnb, hb⟩
    exact ⟨⟨r, hr, hok⟩, ⟨rk, hrk, hkok⟩⟩

/-- Instance of the amended C5 at `a = 905`, `b = 17`, `k = 214748364` and `n = 2`. -/
theorem digit_range_invariant_witness :
    ((BigInt.ofString "905").add (BigInt.ofString "17")).DigitsOk
      ∧ ((BigInt.ofString "17").digits.length ≤ (BigInt.ofString "905").digits.length →
          ∃ r : BigInt, (BigInt.ofString "905").sub (BigInt.ofString "17") = some r
            ∧ r.DigitsOk)
      ∧ ((BigInt.ofString "905").mulInt 214748364).DigitsOk
      ∧ ((BigInt.ofString "905").shl 2).DigitsOk
      ∧ ((BigInt.ofString "905").digits ≠ [] → (BigInt.ofString "17").digits ≠ [] →
          (∃ r : BigInt, (BigInt.ofString "905").mul (BigInt.ofString "17") = some r
            ∧ r.DigitsOk)
          ∧ (∃ r : BigInt, karatsuba (BigInt.ofString "905") (BigInt.ofString "17") = some r
            ∧ r.DigitsOk)) :=
  digit_range_invariant _ _ 214748364 2 (by decide) (by decide) (by decide) (by decide)

/-- C6, as stated, fails: the digit `9` times the `int` `300000000` leaves the 32-bit
range, and the result does not denote `300000000 * 9`. -/
theorem mulInt_value_counterexample :
    (BigInt.ofString "9").WellFormed ∧ (0 : Int) ≤ 300000000
      ∧ ((BigInt.ofString "9").mulInt 300000000).value = -1594967296
      ∧ ((BigInt.ofString "9").mulInt 300000000).value
          ≠ 300000000 * (BigInt.ofString "9").value := by
  decide

/-- C6, amended. Scalar multiplication is correct and consistent with full multiplication
for every multiplier `0 ≤ k ≤ 214748364`: for a well-formed `a`, the value of `a * k` is
`k * value(a)`, and the schoolbook product of `a` with any well-formed digit sequence of
value `k` returns a result of the same value. -/
theorem mulInt_value (a : BigInt) (k : Int) (ha : a.WellFormed) (hk0 : 0 ≤ k)
    (hk1 : k ≤ 214748364) :
    (a.mulInt k).value = k * a.value
      ∧ ∀ kb : BigInt, kb.WellFormed → kb.value = k →
          ∃ r : BigInt, a.mul kb = some r ∧ r.value = (a.mulInt k).value := by
  have h := (mulInt_spec a k ha.2 ⟨hk0, hk1⟩).2
  refine ⟨h, ?_⟩
  intro kb hkb hkv
  obtain ⟨r, hr, _, _, hv⟩ := mul_spec a kb ha hkb
  exact ⟨r, hr, by rw [hv, h, hkv]; ring⟩

/-- Instance of the amended C6 at `a = 99` with the single-digit `k = 7` and the
multi-digit `k = 12345`. -/
theorem mulInt_value_witness :
    (((BigInt.ofString "99").mulInt 7).value = 7 * (BigInt.ofString "99").value
        ∧ ∀ kb : BigInt, kb.WellFormed → kb.value = 7 →
          ∃ r : BigInt, (BigInt.ofString "99").mul kb = some r
            ∧ r.value = ((BigInt.ofString "99").mulInt 7).value)
      ∧ (((BigInt.ofString "99").mulInt 12345).value = 12345 * (BigInt.ofString "99").value
        ∧ ∀ kb : BigInt, kb.WellFormed → kb.value = 12345 →
          ∃ r : BigInt, (BigInt.ofString "99").mul kb = some r
            ∧ r.value = ((BigInt.ofString "99").mulInt 12345).value) :=
  ⟨mulInt_value _ 7 (by decide) (by decide) (by decide),
   mulInt_value _ 12345 (by decide) (by decide) (by decide)⟩

/-- C7. Digit shift: for every `a` and every `n ≥ 0`, `a << n` is `n` zero digits followed
by the digits of `a` in their order, of length `len(a) + n` and value `value(a) * 10^n`;
for a well-formed `a` this is the value of the schoolbook product of `a` with the digit
sequence of `10^n` (the digit 1 above `n` zeros). -/
theorem shl_correct (a : BigInt) (n : Nat) :
    (a.shl n).digits = List.replicate n 0 ++ a.digits
      ∧ (a.shl n).digits.length = a.digits.length + n
      ∧ (a.shl n).value = a.value * 10 ^ n
      ∧ (a.WellFormed → ∃ r : BigInt, a.mul ⟨List.replicate n 0 ++ [1]⟩ = some r
          ∧ r.value = (a.shl n).value) := by
  refine ⟨shl_digits a n, length_shl a n, value_shl a n, ?_⟩
  intro ha
  have hp : (⟨List.replicate n 0 ++ [1]⟩ : BigInt).WellFormed := by
    refine ⟨by simp, ?_⟩
    apply digitsOk_append.2
    refine ⟨digitsOk_replicate_zero n, ?_⟩
    intro d hd
    simp at hd
    omega
  obtain ⟨r, hr, _, _, hv⟩ := mul_spec a _ ha hp
  refine ⟨r, hr, ?_⟩
  rw [hv, value_shl]
  simp [BigInt.value, digitsValue_append, digitsValue_replicate_zero, digitsValue]

/-- Instance of C7 at `7 << 3`, which is the digit sequence of `7000`, the value of the
schoolbook product of `7` and `1000`. -/
theorem shl_correct_witness :
    (BigInt.ofString "7").shl 3 = BigInt.ofString "7000"
      ∧ ∃ r : BigInt, (BigInt.ofString "7").mul (BigInt.ofString "1000") = some r
          ∧ r.value = ((BigInt.ofString "7").shl 3).value :=
  ⟨by decide, (shl_correct (BigInt.ofString "7") 3).2.2.2 (by decide)⟩

/-- C10. Commutativity of both multiplications: for all well-formed operands, `a * b` and
`b * a` return results of the same value, and so do `karatsuba(a, b)` and `karatsuba(b, a)`,
whichever operand is the longer. -/
theorem mul_karatsuba_comm (a b : BigInt) (ha : a.WellFormed) (hb : b.WellFormed) :
    (∃ r1 r2 : BigInt, a.mul b = some r1 ∧ b.mul a = some r2 ∧ r1.value = r2.value)
      ∧ (∃ r1 r2 : BigInt, karatsuba a b = some r1 ∧ karatsuba b a = some r2
          ∧ r1.value = r2.value) := by
  obtain ⟨r1, h1, _, _, hv1⟩ := mul_spec a b ha hb
  obtain ⟨r2, h2, _, _, hv2⟩ := mul_spec b a hb ha
  obtain ⟨k1, hk1, _, _, hkv1⟩ := karatsuba_correct a b ha hb
  obtain ⟨k2, hk2, _, _, hkv2⟩ := karatsuba_correct b a hb ha
  exact ⟨⟨r1, r2, h1, h2, by rw [hv1, hv2]; ring⟩, ⟨k1, k2, hk1, hk2, by rw [hkv1, hkv2]; ring⟩⟩

/-- Instance of C10 at a 2-digit and a 5-digit operand. -/
theorem mul_karatsuba_comm_witness :
    (∃ r1 r2 : BigInt, (BigInt.ofString "12").mul (BigInt.ofString "98765") = some r1
        ∧ (BigInt.ofString "98765").mul (BigInt.ofString "12") = some r2
        ∧ r1.value = r2.value)
      ∧ (∃ r1 r2 : BigInt, karatsuba (BigInt.ofString "12") (BigInt.ofString "98765") = some r1
          ∧ karatsuba (BigInt.ofString "98765") (BigInt.ofString "12") = some r2
          ∧ r1.value = r2.value) :=
  mul_karatsuba_comm _ _ (by decide) (by decide)

/-! ## Construction from a string and output -/

theorem isDigit_range (c : Char) (h : c.isDigit = true) : 48 ≤ c.toNat ∧ c.toNat ≤ 57 := by
  simp only [Char.isDigit, Bool.and_eq_true, decide_eq_true_eq] at h
  exact ⟨h.1, h.2⟩

/-- Printing the digit of a decimal character gives back the character. -/
theorem repr_ascii2Int (c : Char) (h : c.isDigit = true) :
    Int.repr (Op.Ascii2Int c) = String.singleton c := by
  obtain ⟨h1, h2⟩ := isDigit_range c h
  have hc : c = Char.ofNat c.toNat := (Char.ofNat_toNat c).symm
  have hcases : c.toNat = 48 ∨ c.toNat = 49 ∨ c.toNat = 50 ∨ c.toNat = 51 ∨ c.toNat = 52
      ∨ c.toNat = 53 ∨ c.toNat = 54 ∨ c.toNat = 55 ∨ c.toNat = 56 ∨ c.toNat = 57 := by
    omega
  rcases hcases with h | h | h | h | h | h | h | h | h | h <;>
    (rw [hc, h]; decide)

theorem ascii2Int_range (c : Char) (h : c.isDigit = true) :
    0 ≤ Op.Ascii2Int c ∧ Op.Ascii2Int c ≤ 9 := by
  obtain ⟨h1, h2⟩ := isDigit_range c h
  unfold Op.Ascii2Int
  omega

theorem foldl_append_singletons (l : List Char) (acc : String) :
    List.foldl (fun r s => r ++ s) acc (l.map String.singleton) = acc ++ String.mk l := by
  induction l generalizing acc with
  | nil =>
    apply String.ext
    simp
  | cons c cs ih =>
    simp only [List.map_cons, List.foldl_cons, ih]
    apply String.ext
    simp [String.singleton]

/-- The output of a constructed number whose string holds only decimal characters is the
string. -/
theorem print_ofString (s : String) (h : ∀ c ∈ s.data, c.isDigit = true) :
    (BigInt.ofString s).print = s := by
  simp only [BigInt.print, BigInt.ofString, List.map_reverse, List.reverse_reverse,
    List.map_map, String.join]
  have hmap : s.data.map (Int.repr ∘ Op.Ascii2Int) = s.data.map String.singleton := by
    apply List.map_congr_left
    intro c hc
    exact repr_ascii2Int c (h c hc)
  rw [hmap, foldl_append_singletons]
  apply String.ext
  simp

/-- C8. Parse and output round trip: for every string `s` made only of the characters
`'0'..'9'`, the output of the number constructed from `s` is exactly `s`; the constructor
stores one digit per character, at index `i` the digit of the character at string position
`len(s) - 1 - i`, and every stored digit is in `0..9`. -/
theorem ofString_print_roundtrip (s : String) (h : ∀ c ∈ s.data, c.isDigit = true) :
    (BigInt.ofString s).print = s
      ∧ (BigInt.ofString s).digits.length = s.length
      ∧ (∀ i : Nat, i < s.length →
          (BigInt.ofString s).digits[i]?
            = (s.data[s.length - 1 - i]?).map Op.Ascii2Int)
      ∧ (BigInt.ofString s).DigitsOk := by
  have hlen : s.length = s.data.length := rfl
  refine ⟨print_ofString s h, ?_, ?_, ?_⟩
  · rw [hlen]
    simp only [BigInt.ofString, List.length_map, List.length_reverse]
  · intro i hi
    rw [hlen] at hi ⊢
    simp only [BigInt.ofString]
    rw [List.getElem?_map, List.getElem?_reverse hi]
  · intro d hd
    simp only [BigInt.ofString, List.mem_map, List.mem_reverse] at hd
    obtain ⟨c, hc, rfl⟩ := hd
    exact ascii2Int_range c (h c hc)

/-- Instance of C8 at the string `9070`, stored as the digits 0, 7, 0, 9. -/
theorem ofString_print_roundtrip_witness :
    (BigInt.ofString "9070").digits = [0, 7, 0, 9]
      ∧ (BigInt.ofString "9070").print = "9070"
      ∧ (BigInt.ofString "9070").digits.length = "9070".length
      ∧ (∀ i : Nat, i < "9070".length →
          (BigInt.ofString "9070").digits[i]?
            = ("9070".data["9070".length - 1 - i]?).map Op.Ascii2Int)
      ∧ (BigInt.ofString "9070").DigitsOk :=
  ⟨by decide, ofString_print_roundtrip "9070" (by decide)⟩

/-! ## Associativity of addition -/

theorem bigInt_eq_of_value_eq (x y : BigInt) (hx : x.DigitsOk) (hy : y.DigitsOk)
    (hl : x.digits.length = y.digits.length) (hv : x.value = y.value) : x = y := by
  cases x with
  | mk xs =>
    cases y with
    | mk ys =>
      have := digits_eq_of_value_eq xs ys hx hy hl hv
      rw [this]

/-- The length of a sum: the length of the longer operand, and one more exactly when the
sum of the values does not fit. -/
theorem length_add_eq (a b : BigInt) (ha : a.DigitsOk) (hb : b.DigitsOk) :
    (a.add b).digits.length
      = if a.value + b.value < 10 ^ (max a.digits.length b.digits.length)
        then max a.digits.length b.digits.length
        else max a.digits.length b.digits.length + 1 := by
  split_ifs with h
  · exact length_add_of_lt a b ha hb h
  · exact length_add_of_ge a b ha hb (by omega)

/-- The length of a sum of three operands, added left to right. -/
theorem length_add_add (a b c : BigInt) (ha : a.DigitsOk) (hb : b.DigitsOk)
    (hc : c.DigitsOk) :
    ((a.add b).add c).digits.length
      = if a.value + b.value + c.value
            < 10 ^ (max (max a.digits.length b.digits.length) c.digits.length)
        then max (max a.digits.length b.digits.length) c.digits.length
        else max (max a.digits.length b.digits.length) c.digits.length + 1 := by
  have hab := digitsOk_add a b ha hb
  rw [length_add_eq _ _ hab hc, value_add a b ha hb, length_add_eq a b ha hb]
  have ha0 := value_nonneg a ha
  have hb0 := value_nonneg b hb
  have hc0 := value_nonneg c hc
  have ha1 := value_lt a ha
  have hb1 := value_lt b hb
  have hc1 := value_lt c hc
  have hpa : (10 : Int) ^ a.digits.length ≤ 10 ^ (max a.digits.length b.digits.length) :=
    pow_le_pow_right₀ (by norm_num) (le_max_left _ _)
  have hpb : (10 : Int) ^ b.digits.length ≤ 10 ^ (max a.digits.length b.digits.length) :=
    pow_le_pow_right₀ (by norm_num) (le_max_right _ _)
  by_cases hs : a.value + b.value < 10 ^ (max a.digits.length b.digits.length)
  · simp only [hs, if_true]
  · simp only [hs, if_false]
    by_cases hlc : c.digits.length ≤ max a.digits.length b.digits.length
    · have hM : max (max a.digits.length b.digits.length) c.digits.length
          = max a.digits.length b.digits.length := max_eq_left hlc
      have hM1 : max (max a.digits.length b.digits.length + 1) c.digits.length
          = max a.digits.length b.digits.length + 1 := max_eq_left (by omega)
      have hpc : (10 : Int) ^ c.digits.length ≤ 10 ^ (max a.digits.length b.digits.length) :=
        pow_le_pow_right₀ (by norm_num) hlc
      rw [hM, hM1]
      have h1 : a.value + b.value + c.value
          < 10 ^ (max a.digits.length b.digits.length + 1) := by
        rw [pow_succ]
        omega
      have h2 : ¬ a.value + b.value + c.value
          < 10 ^ (max a.digits.length b.digits.length) := by omega
      simp only [h1, h2, if_true, if_false]
    · have hM : max (max a.digits.length b.digits.length) c.digits.length
          = c.digits.length := max_eq_right (by omega)
      have hM1 : max (max a.digits.length b.digits.length + 1) c.digits.length
          = c.digits.length := max_eq_right (by omega)
      rw [hM, hM1]

theorem add_comm_digits (a b : BigInt) (ha : a.DigitsOk) (hb : b.DigitsOk) :
    a.add b = b.add a := by
  apply bigInt_eq_of_value_eq _ _ (digitsOk_add a b ha hb) (digitsOk_add b a hb ha)
  · rw [length_add_eq a b ha hb, length_add_eq b a hb ha, max_comm, add_comm]
  · rw [value_add a b ha hb, value_add b a hb ha, add_comm]

/-- C9. Addition is associative on digit sequences: for all operands with digits in `0..9`,
of any lengths, `add(add(a, b), c)` and `add(a, add(b, c))` are the same digit sequence, of
value `value(a) + value(b) + value(c)`. -/
theorem add_assoc_digits (a b c : BigInt) (ha : a.WellFormed) (hb : b.WellFormed)
    (hc : c.WellFormed) :
    (a.add b).add c = a.add (b.add c)
      ∧ ((a.add b).add c).value = a.value + b.value + c.value := by
  have hab := digitsOk_add a b ha.2 hb.2
  have hbc := digitsOk_add b c hb.2 hc.2
  have hv : ((a.add b).add c).value = a.value + b.value + c.value := by
    rw [value_add _ _ hab hc.2, value_add a b ha.2 hb.2]
  refine ⟨?_, hv⟩
  rw [add_comm_digits a (b.add c) ha.2 hbc, add_comm_digits b c hb.2 hc.2]
  have hcb := digitsOk_add c b hc.2 hb.2
  apply bigInt_eq_of_value_eq _ _ (digitsOk_add _ _ hab hc.2) (digitsOk_add _ _ hcb ha.2)
  · rw [length_add_add a b c ha.2 hb.2 hc.2, length_add_add c b a hc.2 hb.2 ha.2]
    have hm : max (max c.digits.length b.digits.length) a.digits.length
        = max (max a.digits.length b.digits.length) c.digits.length := by
      omega
    have hs : c.value + b.value + a.value = a.value + b.value + c.value := by ring
    rw [hm, hs]
  · rw [hv, value_add _ _ hcb ha.2, value_add c b hc.2 hb.2]
    ring

/-- Instance of C9 at operands of one, two and three digits, where the inner sums carry
into a new digit. -/
theorem add_assoc_digits_witness :
    ((BigInt.ofString "5").add (BigInt.ofString "95")).add (BigInt.ofString "900")
        = (BigInt.ofString "5").add ((BigInt.ofString "95").add (BigInt.ofString "900"))
      ∧ (((BigInt.ofString "5").add (BigInt.ofString "95")).add (BigInt.ofString "900")).value
        = (BigInt.ofString "5").value + (BigInt.ofString "95").value
          + (BigInt.ofString "900").value :=
  add_assoc_digits _ _ _ (by decide) (by decide) (by decide)

/-! ## The intermediate values of schoolbook multiplication -/

/-- The result of `operator*=(const BigInt &)` is the carry pass and the draining loop on the
column sums. -/
theorem mul_eq_carry_pass (a b : BigInt) :
    a.mul b = match a.mulArray b with
      | [] => none
      | _ :: _ => some ⟨(transform1 Op.Carry 0 (a.mulColumns b)).1
          ++ drain (transform1 Op.Carry 0 (a.mulColumns b)).2⟩ := by
  unfold BigInt.mul BigInt.mulColumns BigInt.mulArray
  split_ifs with h
  · simp only
    cases a.digits with
    | nil => rfl
    | cons d ds => rfl
  · simp only
    cases b.digits with
    | nil => rfl
    | cons d ds => rfl

/-- The column sums are the last content of `digits` before the carry pass. -/
theorem accumulate_eq_getLastD (rows : List BigInt) (i : Nat) (digits : List Int) :
    BigInt.accumulate rows i digits
      = (BigInt.accumulateStates rows i digits).getLastD digits := by
  induction rows generalizing i digits with
  | nil => simp [BigInt.accumulate, BigInt.accumulateStates]
  | cons row rows ih =>
    simp only [BigInt.accumulate, BigInt.accumulateStates, List.getLastD_cons]
    exact ih _ _

/-- The final carry of the carry pass is the last carry of its trace. -/
theorem transform1_carry_state (l : List Int) (c : Int) :
    (transform1 Op.Carry c l).2 = ((carryTrace c l).map Prod.snd).getLastD c := by
  induction l generalizing c with
  | nil => simp [transform1, carryTrace]
  | cons x xs ih =>
    simp only [transform1, carryTrace, List.map_cons, List.getLastD_cons]
    exact ih _

/-- On elements in `0..M` and a carry in `0..C`, where `M + C ≤ 10 * C + 9`, every value the
carry pass sees after `n += carry` is in `0..M + C` and every carry in `0..C`. -/
theorem carryTrace_bounds (M C : Int) (hMC : M + C ≤ 10 * C + 9) (l : List Int) (c : Int)
    (hl : ∀ d ∈ l, 0 ≤ d ∧ d ≤ M) (hc : 0 ≤ c ∧ c ≤ C) :
    ∀ t ∈ carryTrace c l, (0 ≤ t.1 ∧ t.1 ≤ M + C) ∧ (0 ≤ t.2 ∧ t.2 ≤ C) := by
  induction l generalizing c with
  | nil =>
    intro t ht
    simp [carryTrace] at ht
  | cons x xs ih =>
    have hx := hl x (List.mem_cons_self x xs)
    have hxs : ∀ d ∈ xs, 0 ≤ d ∧ d ≤ M := fun d hd => hl d (List.mem_cons_of_mem x hd)
    have hnn : 0 ≤ x + c := by omega
    have hc2 : 0 ≤ (x + c) / 10 ∧ (x + c) / 10 ≤ C := by omega
    intro t ht
    simp only [carryTrace, carry_eq c x hnn, List.mem_cons] at ht
    rcases ht with ht | ht
    · rw [ht]
      exact ⟨⟨hnn, by omega⟩, hc2⟩
    · exact ih ((x + c) / 10) hxs hc2 t ht

/-- The rows of the array on digits in `0..9`: every element is a product of two digits. -/
theorem row_bounds (l : List Int) (d : Int) (hl : digitsOk l) (hd : 0 ≤ d ∧ d ≤ 9) :
    ∀ x ∈ l.map (fun a => a * d), 0 ≤ x ∧ x ≤ 81 := by
  intro x hx
  obtain ⟨a, ha, rfl⟩ := List.mem_map.1 hx
  have := hl a ha
  constructor
  · nlinarith
  · nlinarith

/-- The accumulation loop over the rows of the digits `ds`, starting at shift `i` from a
content with elements in `0..81 * k`: every later content, and the last one, has elements in
`0..81 * (k + len(ds))`. -/
theorem accumulate_bounds (l : List Int) (hl : digitsOk l) (ds : List Int) (hds : digitsOk ds)
    (i : Nat) (digits : List Int) (hlen : l.length + i + ds.length ≤ digits.length + 1)
    (k : Int) (hk : 0 ≤ k) (hdig : ∀ x ∈ digits, 0 ≤ x ∧ x ≤ 81 * k) :
    (∀ st ∈ BigInt.accumulateStates (ds.map fun d => (⟨l.map (Op.Mul d)⟩ : BigInt)) i digits,
        ∀ x ∈ st, 0 ≤ x ∧ x ≤ 81 * (k + ds.length))
      ∧ (∀ x ∈ BigInt.accumulate (ds.map fun d => (⟨l.map (Op.Mul d)⟩ : BigInt)) i digits,
        0 ≤ x ∧ x ≤ 81 * (k + ds.length)) := by
  induction ds generalizing i digits k with
  | nil =>
    simp only [List.map_nil, BigInt.accumulateStates, BigInt.accumulate, List.length_nil,
      Nat.cast_zero, add_zero]
    exact ⟨fun st hst => (by cases hst), hdig⟩
  | cons d ds ih =>
    rw [digitsOk_cons] at hds
    simp only [List.length_cons] at hlen
    simp only [List.map_cons, BigInt.accumulateStates, BigInt.accumulate, List.length_cons,
      Nat.cast_add, Nat.cast_one]
    have hrow : ((⟨l.map (Op.Mul d)⟩ : BigInt).shl i).digits
        = List.replicate i 0 ++ l.map (fun a => a * d) := by
      rw [shl_digits, map_mul_eq l d hl ⟨hds.1.1, by omega⟩]
    have hrowlen : ((⟨l.map (Op.Mul d)⟩ : BigInt).shl i).digits.length ≤ digits.length := by
      rw [hrow]
      simp only [List.length_append, List.length_replicate, List.length_map]
      omega
    rw [transformZip_eq_pointwise _ _ _ hrowlen]
    have hnext : ∀ x ∈ pointwise Op.Add ((⟨l.map (Op.Mul d)⟩ : BigInt).shl i).digits digits,
        0 ≤ x ∧ x ≤ 81 * (k + 1) := by
      apply pointwise_bounds Op.Add (fun x => 0 ≤ x ∧ x ≤ 81) (fun x => 0 ≤ x ∧ x ≤ 81 * k)
        (fun x => 0 ≤ x ∧ x ≤ 81 * (k + 1)) _ _ _ _ _ hdig
      · intro x y hx hy
        simp only [Op.Add]
        omega
      · intro x hx
        omega
      · rw [hrow]
        intro x hx
        rcases List.mem_append.1 hx with hx | hx
        · rw [List.mem_replicate] at hx
          omega
        · exact row_bounds l d hl hds.1 x hx
    obtain ⟨h1, h2⟩ := ih hds.2 (i + 1)
      (pointwise Op.Add ((⟨l.map (Op.Mul d)⟩ : BigInt).shl i).digits digits)
      (by rw [pointwise_length _ _ _ hrowlen]; omega) (k + 1) (by omega) hnext
    have hlen0 : (0 : Int) ≤ ds.length := Int.natCast_nonneg _
    constructor
    · intro st hst x hx
      rcases List.mem_cons.1 hst with hst | hst
      · rw [hst] at hx
        have := hnext x hx
        omega
      · have := h1 st hst x hx
        omega
    · intro x hx
      have := h2 x hx
      omega

theorem drain_ne_nil (c : Int) (hc : c ≠ 0) : drain c ≠ [] := by
  unfold drain
  obtain ⟨k, hk⟩ : ∃ k, c.natAbs = k + 1 := ⟨c.natAbs - 1, by omega⟩
  rw [hk]
  simp [drainAux, hc]

/-- The contents of `digits` in `operator*=(const BigInt &)` for a longer operand with digits
`l` and a shorter operand with digits `d0 :: ds`, all in `0..9`: every content has elements
in `0..81 * len(d0 :: ds)`, and the column sums have `len(l) + len(d0 :: ds)` elements. -/
theorem columns_core (l : List Int) (hl : digitsOk l) (d0 : Int) (ds : List Int)
    (hds : digitsOk (d0 :: ds)) :
    (∀ x ∈ resize (l.map (Op.Mul d0)) (l.length + (d0 :: ds).length),
        0 ≤ x ∧ x ≤ 81 * ((d0 :: ds).length : Int))
      ∧ (∀ st ∈ BigInt.accumulateStates (ds.map fun d => (⟨l.map (Op.Mul d)⟩ : BigInt)) 1
            (resize (l.map (Op.Mul d0)) (l.length + (d0 :: ds).length)),
          ∀ x ∈ st, 0 ≤ x ∧ x ≤ 81 * ((d0 :: ds).length : Int))
      ∧ (∀ x ∈ BigInt.accumulate (ds.map fun d => (⟨l.map (Op.Mul d)⟩ : BigInt)) 1
            (resize (l.map (Op.Mul d0)) (l.length + (d0 :: ds).length)),
          0 ≤ x ∧ x ≤ 81 * ((d0 :: ds).length : Int))
      ∧ (BigInt.accumulate (ds.map fun d => (⟨l.map (Op.Mul d)⟩ : BigInt)) 1
            (resize (l.map (Op.Mul d0)) (l.length + (d0 :: ds).length))).length
          = l.length + (d0 :: ds).length := by
  rw [digitsOk_cons] at hds
  have hres : resize (l.map (Op.Mul d0)) (l.length + (d0 :: ds).length)
      = l.map (fun a => a * d0) ++ List.replicate (ds.length + 1) 0 := by
    rw [map_mul_eq l d0 hl ⟨hds.1.1, by omega⟩, resize_of_length_le _ _ (by simp)]
    simp
  rw [hres]
  have hlen0 : (0 : Int) ≤ ds.length := Int.natCast_nonneg _
  have h0 : ∀ x ∈ l.map (fun a => a * d0) ++ List.replicate (ds.length + 1) 0,
      0 ≤ x ∧ x ≤ 81 * (1 : Int) := by
    intro x hx
    rcases List.mem_append.1 hx with hx | hx
    · have := row_bounds l d0 hl hds.1 x hx
      omega
    · rw [List.mem_replicate] at hx
      omega
  have hlen : l.length + 1 + ds.length
      ≤ (l.map (fun a => a * d0) ++ List.replicate (ds.length + 1) 0).length + 1 := by
    simp only [List.length_append, List.length_map, List.length_replicate]
    omega
  obtain ⟨h1, h2⟩ := accumulate_bounds l hl ds hds.2 1 _ hlen 1 (by norm_num) h0
  obtain ⟨h3, _, _⟩ := accumulate_spec l hl ds hds.2 1 _ hlen (fun x hx => (h0 x hx).1)
  simp only [List.length_cons, Nat.cast_add, Nat.cast_one]
  refine ⟨?_, ?_, ?_, ?_⟩
  · intro x hx
    have := h0 x hx
    omega
  · intro st hst x hx
    have := h1 st hst x hx
    omega
  · intro x hx
    have := h2 x hx
    omega
  · rw [h3]
    simp only [List.length_append, List.length_map, List.length_replicate]

/-- The rows, the contents of `digits` and the column sums of `operator*=(const BigInt &)`
on well-formed operands. -/
theorem mul_columns_spec (a b : BigInt) (ha : a.WellFormed) (hb : b.WellFormed) :
    (∃ row rows, a.mulArray b = row :: rows)
      ∧ (∀ row ∈ a.mulArray b, ∀ x ∈ row.digits, 0 ≤ x ∧ x ≤ 81)
      ∧ (∀ st ∈ a.mulStates b, ∀ x ∈ st,
          0 ≤ x ∧ x ≤ 81 * ((min a.digits.length b.digits.length : Nat) : Int))
      ∧ (∀ x ∈ a.mulColumns b,
          0 ≤ x ∧ x ≤ 81 * ((min a.digits.length b.digits.length : Nat) : Int))
      ∧ (a.mulColumns b).length = a.digits.length + b.digits.length
      ∧ a.mulColumns b = (a.mulStates b).getLastD [] := by
  obtain ⟨a0, as, haa⟩ := List.exists_cons_of_ne_nil ha.1
  obtain ⟨b0, bs, hbb⟩ := List.exists_cons_of_ne_nil hb.1
  have hrows : ∀ (l : List Int) (d : Int), digitsOk l → (0 ≤ d ∧ d ≤ 9) →
      ∀ x ∈ l.map (Op.Mul d), 0 ≤ x ∧ x ≤ 81 := by
    intro l d hl hd x hx
    rw [map_mul_eq l d hl ⟨hd.1, by omega⟩] at hx
    exact row_bounds l d hl hd x hx
  by_cases h : a.digits.length < b.digits.length
  · have hmin : min a.digits.length b.digits.length = a.digits.length := by omega
    have hds : digitsOk (a0 :: as) := by rw [← haa]; exact ha.2
    obtain ⟨c1, c2, c3, c4⟩ := columns_core b.digits hb.2 a0 as hds
    rw [hmin]
    simp only [BigInt.mulArray, BigInt.mulStates, BigInt.mulColumns, h, if_true,
      transformInto_row]
    rw [haa]
    simp only [List.map_cons]
    refine ⟨⟨_, _, rfl⟩, ?_, ?_, c3, ?_, ?_⟩
    · intro row hrow x hx
      rw [← List.map_cons (fun d => (⟨b.digits.map (Op.Mul d)⟩ : BigInt)), List.mem_map] at hrow
      obtain ⟨d, hd, rfl⟩ := hrow
      exact hrows b.digits d hb.2 (hds d hd) x hx
    · intro st hst x hx
      rcases List.mem_cons.1 hst with hst | hst
      · rw [hst] at hx
        exact c1 x hx
      · exact c2 st hst x hx
    · rw [c4]
      simp only [List.length_cons]
      omega
    · rw [accumulate_eq_getLastD, List.getLastD_cons]
  · have hmin : min a.digits.length b.digits.length = b.digits.length := by omega
    have hds : digitsOk (b0 :: bs) := by rw [← hbb]; exact hb.2
    obtain ⟨c1, c2, c3, c4⟩ := columns_core a.digits ha.2 b0 bs hds
    rw [hmin]
    simp only [BigInt.mulArray, BigInt.mulStates, BigInt.mulColumns, h, if_false,
      transformInto_row]
    rw [hbb]
    simp only [List.map_cons]
    refine ⟨⟨_, _, rfl⟩, ?_, ?_, c3, c4, ?_⟩
    · intro row hrow x hx
      rw [← List.map_cons (fun d => (⟨a.digits.map (Op.Mul d)⟩ : BigInt)), List.mem_map] at hrow
      obtain ⟨d, hd, rfl⟩ := hrow
      exact hrows a.digits d ha.2 (hds d hd) x hx
    · intro st hst x hx
      rcases List.mem_cons.1 hst with hst | hst
      · rw [hst] at hx
        exact c1 x hx
      · exact c2 st hst x hx
    · rw [accumulate_eq_getLastD, List.getLastD_cons]

/-! ## Lengths of sums without any assumption on the digits -/

theorem length_add_bounds (a b : BigInt) :
    max a.digits.length b.digits.length ≤ (a.add b).digits.length
      ∧ (a.add b).digits.length ≤ max a.digits.length b.digits.length + 1 := by
  have hlen : b.digits.length ≤ (padded a b).length := by
    rw [padded_length]; omega
  rw [add_digits, List.length_append, transform1_length,
    pointwise_length Op.Add b.digits (padded a b) hlen, padded_length]
  split_ifs <;> simp

/-- The carry of `operator+=` is the final carry of the carry chain over the element-wise
sums. -/
theorem addCarry_eq (a b : BigInt) :
    a.addCarry b = (transform1 Op.Carry 0 (pointwise Op.Add b.digits (padded a b))).2 := by
  simp only [BigInt.addCarry, padded, pointwise, transform1_append, transform2_opWithCarry]

theorem add_digits_of_carry (a b : BigInt) :
    (a.add b).digits.length
      = max a.digits.length b.digits.length + (if a.addCarry b ≠ 0 then 1 else 0) := by
  have hlen : b.digits.length ≤ (padded a b).length := by
    rw [padded_length]; omega
  rw [add_digits, ← addCarry_eq, List.length_append, transform1_length,
    pointwise_length Op.Add b.digits (padded a b) hlen, padded_length]
  split_ifs <;> simp

theorem addCarry_range (a b : BigInt) (ha : a.DigitsOk) (hb : b.DigitsOk) :
    a.addCarry b = 0 ∨ a.addCarry b = 1 := by
  have hrange : ∀ d ∈ pointwise Op.Add b.digits (padded a b), 0 ≤ d ∧ d ≤ 18 := by
    apply pointwise_bounds Op.Add (fun d => 0 ≤ d ∧ d ≤ 9) (fun d => 0 ≤ d ∧ d ≤ 9)
      (fun d => 0 ≤ d ∧ d ≤ 18) _ _ _ _ hb (padded_ok a b ha)
    · intro x y hx hy
      simp only [Op.Add]
      omega
    · intro x hx
      omega
  obtain ⟨_, h2, h3⟩ := transform1_carry_bounds 18 1 (by norm_num) _ 0 hrange (by norm_num)
  rw [addCarry_eq]
  omega

/-! ## The claims on the recursion, lengths and intermediate values -/

/-- C11. Karatsuba never leaves the precondition of subtraction: for well-formed operands
with at least 30 digits each, split into `x0, x1, y0, y1`, the three recursive calls return
`z0`, `z2` and `p`; `p` has at least the digits and the value of `z2`, so `p - z2` returns
`d` with value `value(p) - value(z2)`; `d` has at least the digits and the value of `z0`, so
`d - z0` returns `z1` with value `value(d) - value(z0)`; and `karatsuba` returns their
recombination. The operands of the three recursive calls are well-formed again, so the same
holds at every depth of the recursion. -/
theorem karatsuba_sub_safe (op1 op2 x0 x1 y0 y1 : BigInt) (m : Nat)
    (h1 : op1.WellFormed) (h2 : op2.WellFormed)
    (hl1 : 30 ≤ op1.digits.length) (hl2 : 30 ≤ op2.digits.length)
    (hs : split op1 op2 default default default default = (x0, x1, y0, y1, m)) :
    ∃ z0 z2 p d z1 : BigInt,
      karatsuba x0 y0 = some z0 ∧ karatsuba x1 y1 = some z2
      ∧ karatsuba (x0.add x1) (y0.add y1) = some p
      ∧ (z2.digits.length ≤ p.digits.length ∧ z2.value ≤ p.value)
      ∧ (p.sub z2 = some d ∧ d.value = p.value - z2.value)
      ∧ (z0.digits.length ≤ d.digits.length ∧ z0.value ≤ d.value)
      ∧ (d.sub z0 = some z1 ∧ z1.value = d.value - z0.value)
      ∧ karatsuba op1 op2 = some ((z0.add (z1.shl m)).add (z2.shl (2 * m)))
      ∧ (x0.WellFormed ∧ y0.WellFormed) ∧ (x1.WellFormed ∧ y1.WellFormed)
      ∧ ((x0.add x1).WellFormed ∧ (y0.add y1).WellFormed) := by
  rw [split_eq] at hs
  simp only [Prod.mk.injEq] at hs
  obtain ⟨hx0, hx1, hy0, hy1, hm⟩ := hs
  have hthr : ¬ (op1.digits.length < 30 ∨ op2.digits.length < 30) := by omega
  have hk := karatsuba_rec op1 op2 hthr
  rw [hx0, hx1, hy0, hy1, hm] at hk
  have hm15 : 15 ≤ m := by omega
  have hm1 : 2 * m ≤ op1.digits.length := by omega
  have hm2 : 2 * m ≤ op2.digits.length := by omega
  have hx0ok : x0.DigitsOk := by rw [← hx0]; exact digitsOk_take h1.2 _
  have hx1ok : x1.DigitsOk := by rw [← hx1]; exact digitsOk_drop h1.2 _
  have hy0ok : y0.DigitsOk := by rw [← hy0]; exact digitsOk_take h2.2 _
  have hy1ok : y1.DigitsOk := by rw [← hy1]; exact digitsOk_drop h2.2 _
  have hx0len : x0.digits.length = m := by
    rw [← hx0]; simp only [List.length_take]; omega
  have hx1len : x1.digits.length = op1.digits.length - m := by
    rw [← hx1]; simp only [List.length_drop]; omega
  have hy0len : y0.digits.length = m := by
    rw [← hy0]; simp only [List.length_take]; omega
  have hy1len : y1.digits.length = op2.digits.length - m := by
    rw [← hy1]; simp only [List.length_drop]; omega
  clear hx0 hx1 hy0 hy1 hm
  have hx0wf := wellFormed_of_length_pos x0 hx0ok (by omega)
  have hx1wf := wellFormed_of_length_pos x1 hx1ok (by omega)
  have hy0wf := wellFormed_of_length_pos y0 hy0ok (by omega)
  have hy1wf := wellFormed_of_length_pos y1 hy1ok (by omega)
  have hsx := length_add_bounds x0 x1
  have hsy := length_add_bounds y0 y1
  have hsxwf := wellFormed_of_length_pos _ (digitsOk_add x0 x1 hx0ok hx1ok) (by omega)
  have hsywf := wellFormed_of_length_pos _ (digitsOk_add y0 y1 hy0ok hy1ok) (by omega)
  obtain ⟨z0, hz0, hz0len, hz0ok, hz0v⟩ := karatsuba_correct x0 y0 hx0wf hy0wf
  obtain ⟨z2, hz2, hz2len, hz2ok, hz2v⟩ := karatsuba_correct x1 y1 hx1wf hy1wf
  obtain ⟨p, hp, hplen, hpok, hpv⟩ := karatsuba_correct _ _ hsxwf hsywf
  rw [value_add x0 x1 hx0ok hx1ok, value_add y0 y1 hy0ok hy1ok] at hpv
  have hx0nn := value_nonneg x0 hx0ok
  have hx1nn := value_nonneg x1 hx1ok
  have hy0nn := value_nonneg y0 hy0ok
  have hy1nn := value_nonneg y1 hy1ok
  have hq00 := mul_nonneg hx0nn hy0nn
  have hq01 := mul_nonneg hx0nn hy1nn
  have hq10 := mul_nonneg hx1nn hy0nn
  have hlz2 : z2.digits.length ≤ p.digits.length := by omega
  have hvz2 : z2.value ≤ p.value := by rw [hz2v, hpv]; linarith
  obtain ⟨d, hd, hdlen, hdok, hdv⟩ := sub_spec_of_le p z2 hpok hz2ok hlz2 hvz2
  have hlz0 : z0.digits.length ≤ d.digits.length := by omega
  have hvz0 : z0.value ≤ d.value := by rw [hz0v, hdv, hpv, hz2v]; linarith
  obtain ⟨z1, hz1, _, _, hz1v⟩ := sub_spec_of_le d z0 hdok hz0ok hlz0 hvz0
  simp only [hz0, hz2, hp, hd, hz1] at hk
  exact ⟨z0, z2, p, d, z1, hz0, hz2, hp, ⟨hlz2, hvz2⟩, ⟨hd, hdv⟩, ⟨hlz0, hvz0⟩, ⟨hz1, hz1v⟩,
    hk, ⟨hx0wf, hy0wf⟩, ⟨hx1wf, hy1wf⟩, ⟨hsxwf, hsywf⟩⟩

/-- Instance of C11 at a 30-digit and a 31-digit operand, split at `m = 15`. -/
theorem karatsuba_sub_safe_witness :
    split (BigInt.ofString "123456789123456789123456789123")
        (BigInt.ofString "9876543219876543219876543219876") default default default default
      = (BigInt.ofString "789123456789123", BigInt.ofString "123456789123456",
         BigInt.ofString "219876543219876", BigInt.ofString "9876543219876543", 15)
    ∧ ∃ z0 z2 p d z1 : BigInt,
      karatsuba (BigInt.ofString "789123456789123") (BigInt.ofString "219876543219876")
        = some z0
      ∧ karatsuba (BigInt.ofString "123456789123456") (BigInt.ofString "9876543219876543")
        = some z2
      ∧ karatsuba
          ((BigInt.ofString "789123456789123").add (BigInt.ofString "123456789123456"))
          ((BigInt.ofString "219876543219876").add (BigInt.ofString "9876543219876543"))
        = some p
      ∧ (z2.digits.length ≤ p.digits.length ∧ z2.value ≤ p.value)
      ∧ (p.sub z2 = some d ∧ d.value = p.value - z2.value)
      ∧ (z0.digits.length ≤ d.digits.length ∧ z0.value ≤ d.value)
      ∧ (d.sub z0 = some z1 ∧ z1.value = d.value - z0.value)
      ∧ karatsuba (BigInt.ofString "123456789123456789123456789123")
          (BigInt.ofString "9876543219876543219876543219876")
        = some ((z0.add (z1.shl 15)).add (z2.shl (2 * 15)))
      ∧ ((BigInt.ofString "789123456789123").WellFormed
        ∧ (BigInt.ofString "219876543219876").WellFormed)
      ∧ ((BigInt.ofString "123456789123456").WellFormed
        ∧ (BigInt.ofString "9876543219876543").WellFormed)
      ∧ (((BigInt.ofString "789123456789123").add
            (BigInt.ofString "123456789123456")).WellFormed
        ∧ ((BigInt.ofString "219876543219876").add
            (BigInt.ofString "9876543219876543")).WellFormed) :=
  ⟨by decide, karatsuba_sub_safe _ _ _ _ _ _ 15 (by decide) (by decide) (by decide)
    (by decide) (by decide)⟩

/-- C12. Karatsuba and schoolbook agree digit for digit: for well-formed operands both
return, the results are the same digit sequence, of exactly `len(a) + len(b)` digits, and
their outputs are the same string. -/
theorem karatsuba_eq_mul (a b : BigInt) (ha : a.WellFormed) (hb : b.WellFormed) :
    ∃ rk rs : BigInt, karatsuba a b = some rk ∧ a.mul b = some rs
      ∧ rk.digits = rs.digits
      ∧ rk.digits.length = a.digits.length + b.digits.length
      ∧ rk.print = rs.print := by
  obtain ⟨rk, hk, hklen, hkok, hkv⟩ := karatsuba_correct a b ha hb
  obtain ⟨rs, hs, hslen, hsok, hsv⟩ := mul_spec a b ha hb
  have heq : rk = rs :=
    bigInt_eq_of_value_eq rk rs hkok hsok (by rw [hklen, hslen]) (by rw [hkv, hsv])
  exact ⟨rk, rs, hk, hs, by rw [heq], hklen, by rw [heq]⟩

/-- Instance of C12 at a 30-digit and a 31-digit operand, where the recursion is entered. -/
theorem karatsuba_eq_mul_witness :
    ∃ rk rs : BigInt,
      karatsuba (BigInt.ofString "123456789123456789123456789123")
          (BigInt.ofString "9876543219876543219876543219876") = some rk
      ∧ (BigInt.ofString "123456789123456789123456789123").mul
          (BigInt.ofString "9876543219876543219876543219876") = some rs
      ∧ rk.digits = rs.digits
      ∧ rk.digits.length = (BigInt.ofString "123456789123456789123456789123").digits.length
          + (BigInt.ofString "9876543219876543219876543219876").digits.length
      ∧ rk.print = rs.print :=
  karatsuba_eq_mul _ _ (by decide) (by decide)

/-- C13. The Karatsuba recursion is well-founded: for operands with at least 30 digits each,
split into `x0, x1, y0, y1`, each of the three recursive calls receives operands with at
least one digit and fewer digits than `op1` and `op2` respectively; and `karatsuba` returns
a result on all well-formed operands. -/
theorem karatsuba_calls_decrease (op1 op2 x0 x1 y0 y1 : BigInt) (m : Nat)
    (hl1 : 30 ≤ op1.digits.length) (hl2 : 30 ≤ op2.digits.length)
    (hs : split op1 op2 default default default default = (x0, x1, y0, y1, m)) :
    ((1 ≤ x0.digits.length ∧ x0.digits.length < op1.digits.length)
        ∧ (1 ≤ y0.digits.length ∧ y0.digits.length < op2.digits.length))
      ∧ ((1 ≤ x1.digits.length ∧ x1.digits.length < op1.digits.length)
        ∧ (1 ≤ y1.digits.length ∧ y1.digits.length < op2.digits.length))
      ∧ ((1 ≤ (x0.add x1).digits.length ∧ (x0.add x1).digits.length < op1.digits.length)
        ∧ (1 ≤ (y0.add y1).digits.length ∧ (y0.add y1).digits.length < op2.digits.length))
      ∧ ∀ a b : BigInt, a.WellFormed → b.WellFormed → ∃ r : BigInt, karatsuba a b = some r := by
  rw [split_eq] at hs
  simp only [Prod.mk.injEq] at hs
  obtain ⟨hx0, hx1, hy0, hy1, hm⟩ := hs
  have hx0len : x0.digits.length = m := by
    rw [← hx0]; simp only [List.length_take]; omega
  have hx1len : x1.digits.length = op1.digits.length - m := by
    rw [← hx1]; simp only [List.length_drop]; omega
  have hy0len : y0.digits.length = m := by
    rw [← hy0]; simp only [List.length_take]; omega
  have hy1len : y1.digits.length = op2.digits.length - m := by
    rw [← hy1]; simp only [List.length_drop]; omega
  have hsx := length_add_bounds x0 x1
  have hsy := length_add_bounds y0 y1
  refine ⟨by omega, by omega, by omega, ?_⟩
  intro a b ha hb
  obtain ⟨r, hr, _⟩ := karatsuba_correct a b ha hb
  exact ⟨r, hr⟩

/-- Instance of C13 at a 30-digit and a 31-digit operand, split at `m = 15`. -/
theorem karatsuba_calls_decrease_witness :
    ((1 ≤ (BigInt.ofString "789123456789123").digits.length
          ∧ (BigInt.ofString "789123456789123").digits.length
            < (BigInt.ofString "123456789123456789123456789123").digits.length)
        ∧ (1 ≤ (BigInt.ofString "219876543219876").digits.length
          ∧ (BigInt.ofString "219876543219876").digits.length
            < (BigInt.ofString "9876543219876543219876543219876").digits.length))
      ∧ ((1 ≤ (BigInt.ofString "123456789123456").digits.length
          ∧ (BigInt.ofString "123456789123456").digits.length
            < (BigInt.ofString "123456789123456789123456789123").digits.length)
        ∧ (1 ≤ (BigInt.ofString "9876543219876543").digits.length
          ∧ (BigInt.ofString "9876543219876543").digits.length
            < (BigInt.ofString "9876543219876543219876543219876").digits.length))
      ∧ ((1 ≤ ((BigInt.ofString "789123456789123").add
              (BigInt.ofString "123456789123456")).digits.length
          ∧ ((BigInt.ofString "789123456789123").add
              (BigInt.ofString "123456789123456")).digits.length
            < (BigInt.ofString "123456789123456789123456789123").digits.length)
        ∧ (1 ≤ ((BigInt.ofString "219876543219876").add
              (BigInt.ofString "9876543219876543")).digits.length
          ∧ ((BigInt.ofString "219876543219876").add
              (BigInt.ofString "9876543219876543")).digits.length
            < (BigInt.ofString "9876543219876543219876543219876").digits.length))
      ∧ ∀ a b : BigInt, a.WellFormed → b.WellFormed → ∃ r : BigInt, karatsuba a b = some r :=
  karatsuba_calls_decrease (BigInt.ofString "123456789123456789123456789123")
    (BigInt.ofString "9876543219876543219876543219876") _ _ _ _ 15 (by decide) (by decide)
    (by decide)

/-- C14. Subtraction wraps: for operands with digits in `0..9` and `len(a) ≥ len(b)`,
whichever is the larger, `a - b` returns `len(a)` digits in `0..9` of value
`(value(a) - value(b)) mod 10^len(a)`; when `value(a) < value(b)` that is
`value(a) - value(b) + 10^len(a)`, the final borrow being dropped. -/
theorem sub_wraps (a b : BigInt) (ha : a.WellFormed) (hb : b.WellFormed)
    (hlen : b.digits.length ≤ a.digits.length) :
    ∃ r : BigInt, a.sub b = some r ∧ r.digits.length = a.digits.length ∧ r.DigitsOk
      ∧ r.value = (a.value - b.value) % 10 ^ a.digits.length
      ∧ (a.value < b.value → r.value = a.value - b.value + 10 ^ a.digits.length) := by
  obtain ⟨r, bw, hr, hl, hok, hbw, hv⟩ := sub_spec a b ha.2 hb.2 hlen
  have hr0 := value_nonneg r hok
  have hr1 := value_lt r hok
  rw [hl] at hr1
  refine ⟨r, hr, hl, hok, ?_, ?_⟩
  · have : a.value - b.value = r.value + 10 ^ a.digits.length * (-bw) := by
      rw [hv]; ring
    rw [this, Int.add_mul_emod_self_left, Int.emod_eq_of_lt hr0 hr1]
  · intro hlt
    rcases hbw with hbw | hbw
    · rw [hbw] at hv
      omega
    · rw [hv, hbw]
      ring

/-- Instance of C14 at `100 - 999`, which wraps to `100 - 999 + 1000 = 101`. -/
theorem sub_wraps_witness :
    (BigInt.ofString "100").sub (BigInt.ofString "999") = some (BigInt.ofString "101")
      ∧ ∃ r : BigInt, (BigInt.ofString "100").sub (BigInt.ofString "999") = some r
        ∧ r.digits.length = (BigInt.ofString "100").digits.length ∧ r.DigitsOk
        ∧ r.value = ((BigInt.ofString "100").value - (BigInt.ofString "999").value)
            % 10 ^ (BigInt.ofString "100").digits.length
        ∧ ((BigInt.ofString "100").value < (BigInt.ofString "999").value →
            r.value = (BigInt.ofString "100").value - (BigInt.ofString "999").value
              + 10 ^ (BigInt.ofString "100").digits.length) :=
  ⟨by decide, sub_wraps _ _ (by decide) (by decide) (by decide)⟩

/-- C15. The length of the schoolbook product is exact: for well-formed operands `a * b`
returns the digits emitted by the carry pass over the column sums, exactly
`len(a) + len(b)` of them; the carry left after the pass is 0 and the draining loop pushes
nothing. -/
theorem mul_length_exact (a b : BigInt) (ha : a.WellFormed) (hb : b.WellFormed) :
    ∃ r : BigInt, a.mul b = some r
      ∧ r.digits.length = a.digits.length + b.digits.length
      ∧ (transform1 Op.Carry 0 (a.mulColumns b)).2 = 0
      ∧ drain (transform1 Op.Carry 0 (a.mulColumns b)).2 = []
      ∧ r.digits = (transform1 Op.Carry 0 (a.mulColumns b)).1 := by
  obtain ⟨r, hr, hrlen, _, _⟩ := mul_spec a b ha hb
  obtain ⟨⟨row, rows, harr⟩, _, _, _, hclen, _⟩ := mul_columns_spec a b ha hb
  have hpass := mul_eq_carry_pass a b
  rw [harr, hr] at hpass
  simp only [Option.some.injEq] at hpass
  have hlen : (drain (transform1 Op.Carry 0 (a.mulColumns b)).2).length = 0 := by
    have := congrArg (fun x : BigInt => x.digits.length) hpass
    simp only [List.length_append, transform1_length, hclen, hrlen] at this
    omega
  have hnil : drain (transform1 Op.Carry 0 (a.mulColumns b)).2 = [] :=
    List.length_eq_zero.1 hlen
  have hzero : (transform1 Op.Carry 0 (a.mulColumns b)).2 = 0 := by
    by_contra hne
    exact drain_ne_nil _ hne hnil
  refine ⟨r, hr, hrlen, hzero, hnil, ?_⟩
  rw [hpass, hnil, List.append_nil]

/-- Instance of C15 at `999 * 999`, the largest product of two three-digit operands. -/
theorem mul_length_exact_witness :
    ∃ r : BigInt, (BigInt.ofString "999").mul (BigInt.ofString "999") = some r
      ∧ r.digits.length
          = (BigInt.ofString "999").digits.length + (BigInt.ofString "999").digits.length
      ∧ (transform1 Op.Carry 0 ((BigInt.ofString "999").mulColumns (BigInt.ofString "999"))).2
          = 0
      ∧ drain (transform1 Op.Carry 0
          ((BigInt.ofString "999").mulColumns (BigInt.ofString "999"))).2 = []
      ∧ r.digits = (transform1 Op.Carry 0
          ((BigInt.ofString "999").mulColumns (BigInt.ofString "999"))).1 :=
  mul_length_exact _ _ (by decide) (by decide)

/-- C16. The procedure `split` is a lossless partition at a common boundary: for all
operands (and whatever the output objects held), `m = min(len(op1), len(op2)) / 2`, the low
halves are the first `m` digits and the high halves the rest; so the halves concatenate to
the operands and `value(op) = value(low) + value(high) * 10^m`. -/
theorem split_partition (op1 op2 p0 p1 q0 q1 x0 x1 y0 y1 : BigInt) (m : Nat)
    (hs : split op1 op2 p0 p1 q0 q1 = (x0, x1, y0, y1, m)) :
    m = min op1.digits.length op2.digits.length / 2
      ∧ (x0.digits = op1.digits.take m ∧ x1.digits = op1.digits.drop m)
      ∧ (y0.digits = op2.digits.take m ∧ y1.digits = op2.digits.drop m)
      ∧ (x0.digits ++ x1.digits = op1.digits ∧ y0.digits ++ y1.digits = op2.digits)
      ∧ (op1.value = x0.value + x1.value * 10 ^ m
        ∧ op2.value = y0.value + y1.value * 10 ^ m) := by
  rw [split_eq] at hs
  simp only [Prod.mk.injEq] at hs
  obtain ⟨hx0, hx1, hy0, hy1, hm⟩ := hs
  have hm1 : m ≤ op1.digits.length := by omega
  have hm2 : m ≤ op2.digits.length := by omega
  rw [hm] at hx0 hx1 hy0 hy1
  have hv1 := value_split op1 m hm1
  have hv2 := value_split op2 m hm2
  rw [hx0, hx1] at hv1
  rw [hy0, hy1] at hv2
  refine ⟨hm.symm, ⟨by rw [← hx0], by rw [← hx1]⟩, ⟨by rw [← hy0], by rw [← hy1]⟩,
    ⟨by rw [← hx0, ← hx1]; exact List.take_append_drop _ _,
     by rw [← hy0, ← hy1]; exact List.take_append_drop _ _⟩,
    ⟨by rw [hv1]; ring, by rw [hv2]; ring⟩⟩

/-- Instance of C16 at operands of five and three digits, split at `m = 1`. -/
theorem split_partition_witness :
    1 = min (BigInt.ofString "12345").digits.length (BigInt.ofString "678").digits.length / 2
      ∧ ((BigInt.ofString "5").digits = (BigInt.ofString "12345").digits.take 1
        ∧ (BigInt.ofString "1234").digits = (BigInt.ofString "12345").digits.drop 1)
      ∧ ((BigInt.ofString "8").digits = (BigInt.ofString "678").digits.take 1
        ∧ (BigInt.ofString "67").digits = (BigInt.ofString "678").digits.drop 1)
      ∧ ((BigInt.ofString "5").digits ++ (BigInt.ofString "1234").digits
          = (BigInt.ofString "12345").digits
        ∧ (BigInt.ofString "8").digits ++ (BigInt.ofString "67").digits
          = (BigInt.ofString "678").digits)
      ∧ ((BigInt.ofString "12345").value
          = (BigInt.ofString "5").value + (BigInt.ofString "1234").value * 10 ^ 1
        ∧ (BigInt.ofString "678").value
          = (BigInt.ofString "8").value + (BigInt.ofString "67").value * 10 ^ 1) :=
  split_partition (BigInt.ofString "12345") (BigInt.ofString "678") default default default
    default _ _ _ _ 1 (by decide)

/-- C17. The length of a sum: for operands with digits in `0..9`, the carry left after the
pass of `operator+=` is 0 or 1, and `a + b` has `max(len(a), len(b))` digits when
`value(a) + value(b) < 10^max(len(a), len(b))` and one more otherwise, the one more being
the appended carry; it never has more than one digit more than the longer operand. -/
theorem add_length (a b : BigInt) (ha : a.DigitsOk) (hb : b.DigitsOk) :
    (a.addCarry b = 0 ∨ a.addCarry b = 1)
      ∧ (a.add b).digits.length
          = (if a.value + b.value < 10 ^ (max a.digits.length b.digits.length)
              then max a.digits.length b.digits.length
              else max a.digits.length b.digits.length + 1)
      ∧ (a.add b).digits.length
          = max a.digits.length b.digits.length + (if a.addCarry b ≠ 0 then 1 else 0)
      ∧ (a.add b).digits.length ≤ max a.digits.length b.digits.length + 1 :=
  ⟨addCarry_range a b ha hb, length_add_eq a b ha hb, add_digits_of_carry a b,
    (length_add_bounds a b).2⟩

/-- Instance of C17 at `999 + 1`, which grows by one digit, and at `998 + 1`, which does
not. -/
theorem add_length_witness :
    ((BigInt.ofString "999").addCarry (BigInt.ofString "1") = 1
        ∧ ((BigInt.ofString "999").add (BigInt.ofString "1")).digits.length = 4
        ∧ (BigInt.ofString "998").addCarry (BigInt.ofString "1") = 0
        ∧ ((BigInt.ofString "998").add (BigInt.ofString "1")).digits.length = 3)
      ∧ (((BigInt.ofString "999").addCarry (BigInt.ofString "1") = 0
          ∨ (BigInt.ofString "999").addCarry (BigInt.ofString "1") = 1)
        ∧ ((BigInt.ofString "999").add (BigInt.ofString "1")).digits.length
            = (if (BigInt.ofString "999").value + (BigInt.ofString "1").value
                  < 10 ^ (max (BigInt.ofString "999").digits.length
                    (BigInt.ofString "1").digits.length)
                then max (BigInt.ofString "999").digits.length
                  (BigInt.ofString "1").digits.length
                else max (BigInt.ofString "999").digits.length
                  (BigInt.ofString "1").digits.length + 1)
        ∧ ((BigInt.ofString "999").add (BigInt.ofString "1")).digits.length
            = max (BigInt.ofString "999").digits.length (BigInt.ofString "1").digits.length
              + (if (BigInt.ofString "999").addCarry (BigInt.ofString "1") ≠ 0 then 1 else 0)
        ∧ ((BigInt.ofString "999").add (BigInt.ofString "1")).digits.length
            ≤ max (BigInt.ofString "999").digits.length (BigInt.ofString "1").digits.length
              + 1) :=
  ⟨by decide, add_length _ _ (by decide) (by decide)⟩

/-- C18. Deferred carrying stays within 32-bit `int`: for well-formed operands, every
product in the rows is in `0..81`; every element of every content of `digits` during the
accumulation is in `0..81 * min(len(a), len(b))`; every value after `n += carry` and every
carry in the carry pass over the column sums are in `0..90 * min(len(a), len(b))` and
`0..9 * min(len(a), len(b))`; so none exceeds `2^31 - 1` when
`min(len(a), len(b)) ≤ 23860929`. The column sums are the last content, and the result is
their carry pass. -/
theorem mul_within_int (a b : BigInt) (ha : a.WellFormed) (hb : b.WellFormed) :
    (a.mulColumns b = (a.mulStates b).getLastD []
        ∧ a.mul b = some ⟨(transform1 Op.Carry 0 (a.mulColumns b)).1
            ++ drain (transform1 Op.Carry 0 (a.mulColumns b)).2⟩)
      ∧ (∀ row ∈ a.mulArray b, ∀ x ∈ row.digits, 0 ≤ x ∧ x ≤ 81)
      ∧ (∀ st ∈ a.mulStates b, ∀ x ∈ st,
          0 ≤ x ∧ x ≤ 81 * ((min a.digits.length b.digits.length : Nat) : Int))
      ∧ (∀ t ∈ carryTrace 0 (a.mulColumns b),
          (0 ≤ t.1 ∧ t.1 ≤ 90 * ((min a.digits.length b.digits.length : Nat) : Int))
          ∧ (0 ≤ t.2 ∧ t.2 ≤ 9 * ((min a.digits.length b.digits.length : Nat) : Int)))
      ∧ (min a.digits.length b.digits.length ≤ 23860929 →
          (∀ st ∈ a.mulStates b, ∀ x ∈ st, x ≤ 2147483647)
          ∧ (∀ t ∈ carryTrace 0 (a.mulColumns b), t.1 ≤ 2147483647 ∧ t.2 ≤ 2147483647)) := by
  obtain ⟨⟨row, rows, harr⟩, hrows, hstates, hcols, _, hlast⟩ := mul_columns_spec a b ha hb
  have hpass := mul_eq_carry_pass a b
  rw [harr] at hpass
  have hmin0 : (0 : Int) ≤ ((min a.digits.length b.digits.length : Nat) : Int) :=
    Int.natCast_nonneg _
  have htrace := carryTrace_bounds
    (81 * ((min a.digits.length b.digits.length : Nat) : Int))
    (9 * ((min a.digits.length b.digits.length : Nat) : Int)) (by omega)
    (a.mulColumns b) 0 hcols ⟨le_refl _, by omega⟩
  refine ⟨⟨hlast, hpass⟩, hrows, hstates, ?_, ?_⟩
  · intro t ht
    have := htrace t ht
    omega
  · intro hmin
    have hcast : ((min a.digits.length b.digits.length : Nat) : Int) ≤ 23860929 := by
      exact_mod_cast hmin
    constructor
    · intro st hst x hx
      have := hstates st hst x hx
      omega
    · intro t ht
      have := htrace t ht
      omega

/-- Instance of C18 at `999 * 99`, whose column sums are 81, 162, 162, 81, 0 and whose carry
pass sees the values 81, 170, 179, 98, 9 and the carries 8, 17, 17, 9, 0. -/
theorem mul_within_int_witness :
    ((BigInt.ofString "999").mulColumns (BigInt.ofString "99") = [81, 162, 162, 81, 0]
        ∧ carryTrace 0 ((BigInt.ofString "999").mulColumns (BigInt.ofString "99"))
          = [(81, 8), (170, 17), (179, 17), (98, 9), (9, 0)])
      ∧ (∀ st ∈ (BigInt.ofString "999").mulStates (BigInt.ofString "99"), ∀ x ∈ st,
          0 ≤ x ∧ x ≤ 81 * ((min (BigInt.ofString "999").digits.length
            (BigInt.ofString "99").digits.length : Nat) : Int))
      ∧ (∀ t ∈ carryTrace 0 ((BigInt.ofString "999").mulColumns (BigInt.ofString "99")),
          (0 ≤ t.1 ∧ t.1 ≤ 90 * ((min (BigInt.ofString "999").digits.length
            (BigInt.ofString "99").digits.length : Nat) : Int))
          ∧ (0 ≤ t.2 ∧ t.2 ≤ 9 * ((min (BigInt.ofString "999").digits.length
            (BigInt.ofString "99").digits.length : Nat) : Int))) :=
  ⟨by decide,
   (mul_within_int (BigInt.ofString "999") (BigInt.ofString "99") (by decide)
      (by decide)).2.2.1,
   (mul_within_int (BigInt.ofString "999") (BigInt.ofString "99") (by decide)
      (by decide)).2.2.2.1⟩
